import Mathlib

/-!
Shallow embedding of the Mancala/Kalah rules engine (`engine.js`) and the
alpha-beta advisor (`ai.js`), together with proofs settling the frozen
claims about the natural-language specification of this repository.

Conventions of the source, kept here:
* side `0` is Player 0 (bottom), side `1` is Player 1 (top);
* `pits[side][i]` for `i = 0 .. n-1`, where `n = pitsPerSide`;
* pit counts and stores are JS numbers; the engine only ever computes with
  integers on them, so they are modelled as `Int`;
* a move is choosing a pit index on the current player's side.
-/

set_option maxHeartbeats 1000000

namespace Mancala

/-- Capture rule variants (`CaptureRule` in `engine.js`). -/
inductive CaptureRule where
  | kalah
  | none
deriving DecidableEq, Repr

/-- Game parameters (`makeRules` in `engine.js`).  `makeRules` validates
`pitsPerSide` to be a positive integer and `seedsPerPit` a non-negative
integer, so both are carried as naturals. -/
structure Rules where
  pitsPerSide : Nat
  seedsPerPit : Nat
  extraTurnOnStore : Bool
  sweepOnGameEnd : Bool
  captureRule : CaptureRule
  allowMoveFromEmpty : Bool
deriving DecidableEq, Repr

/-- Immutable game state (the state objects of `engine.js`).  States built by
the exported constructors always have pit arrays of length `pitsPerSide`;
`toMove` is coerced to `0` or `1` by every constructor. -/
structure GameState where
  pits0 : List Int
  pits1 : List Int
  store0 : Int
  store1 : Int
  toMove : Fin 2
deriving DecidableEq, Repr

/-- `st.pits[side]`. -/
def pitsOf (st : GameState) (side : Fin 2) : List Int :=
  if side = 0 then st.pits0 else st.pits1

/-- `st.store[side]`. -/
def storeOf (st : GameState) (side : Fin 2) : Int :=
  if side = 0 then st.store0 else st.store1

/-- Array read `a[i]`.  In the engine every such read is in range (the pit
arrays have length `pitsPerSide` by construction), so the default is never
exercised on the states the engine builds. -/
def getPit (l : List Int) (i : Nat) : Int := l.getD i 0

/-- Replace one side's pit array. -/
def setSidePits (st : GameState) (side : Fin 2) (l : List Int) : GameState :=
  if side = 0 then { st with pits0 := l } else { st with pits1 := l }

/-- Array write `st.pits[side][i] = v`. -/
def setPit (st : GameState) (side : Fin 2) (i : Nat) (v : Int) : GameState :=
  setSidePits st side ((pitsOf st side).set i v)

/-- `st.store[side] += v`. -/
def addStore (st : GameState) (side : Fin 2) (v : Int) : GameState :=
  if side = 0 then { st with store0 := st.store0 + v }
  else { st with store1 := st.store1 + v }

/-- `initStandard(rules, toMove)`: every pit holds `seedsPerPit`, stores are
empty, and the side to move is coerced to `0` or `1`. -/
def initStandard (rules : Rules) (toMove : Int) : GameState :=
  { pits0 := List.replicate rules.pitsPerSide (rules.seedsPerPit : Int)
    pits1 := List.replicate rules.pitsPerSide (rules.seedsPerPit : Int)
    store0 := 0
    store1 := 0
    toMove := if toMove = 1 then 1 else 0 }

/-- JS `x | 0`: ToInt32 truncation.  On integer inputs this is reduction
into the signed 32-bit range. -/
def toInt32 (z : Int) : Int := (z + 2 ^ 31) % 2 ^ 32 - 2 ^ 31

/-- `initFromArrays(rules, pits0, pits1, store0, store1, toMove)`: only the
two array lengths are validated; the contents are copied unchecked, the two
stores pass through `| 0`, and `toMove` is coerced to `0` or `1`.  The JS
function throws on a length mismatch; the failure is modelled as
`Except.error`. -/
def initFromArrays (rules : Rules) (pits0 pits1 : List Int)
    (store0 store1 : Int) (toMove : Int) : Except String GameState :=
  if pits0.length ≠ rules.pitsPerSide then .error "pits0 wrong length"
  else if pits1.length ≠ rules.pitsPerSide then .error "pits1 wrong length"
  else .ok
    { pits0 := pits0
      pits1 := pits1
      store0 := toInt32 store0
      store1 := toInt32 store1
      toMove := if toMove = 1 then 1 else 0 }

/-- `isTerminal(st, rules)`: true iff all pits of side 0 are zero or all
pits of side 1 are zero.  The JS loop runs `i = 0 .. n-1` over arrays of
length `n`, i.e. over the whole array. -/
def isTerminal (st : GameState) (rules : Rules) : Bool :=
  (st.pits0.all fun x => x == 0) || (st.pits1.all fun x => x == 0)

/-- `finalizeIfTerminal(st, rules)`: sweep each side's remaining pit seeds
into that side's own store when the state is terminal and `sweepOnGameEnd`
is set; otherwise return the state unchanged. -/
def finalizeIfTerminal (st : GameState) (rules : Rules) : GameState :=
  if isTerminal st rules = false then st
  else if rules.sweepOnGameEnd = false then st
  else
    { pits0 := st.pits0.map fun _ => 0
      pits1 := st.pits1.map fun _ => 0
      store0 := st.store0 + st.pits0.sum
      store1 := st.store1 + st.pits1.sum
      toMove := st.toMove }

/-- `getValidMoves(st, rules)`: the indices `0 .. n-1` on the side to move,
skipping empty pits unless `allowMoveFromEmpty`. -/
def getValidMoves (st : GameState) (rules : Rules) : List Nat :=
  (List.range rules.pitsPerSide).filter fun i =>
    rules.allowMoveFromEmpty || !(getPit (pitsOf st st.toMove) i == 0)

/-- One drop location of a sowing path: `{kind:"pit",side,index}` or
`{kind:"store",side}`. -/
inductive Loc where
  | pit (side : Fin 2) (index : Nat)
  | store (side : Fin 2)
deriving DecidableEq, Repr

/-- The ring of `2n+1` positions relative to the mover: `0..n-1` the mover's
pits, `n` the mover's store, `n+1..2n` the opponent's pits (the body of the
`while` loop of `sowPath`). -/
def ringLoc (n : Nat) (mover : Fin 2) (ringPos : Nat) : Loc :=
  if ringPos < n then Loc.pit mover ringPos
  else if ringPos = n then Loc.store mover
  else Loc.pit (1 - mover) (ringPos - (n + 1))

/-- The `while (hand > 0)` loop of `sowPath`, unrolled on the (non-negative)
hand count: drop one seed at the current ring position, then advance
circularly. -/
def sowPathGo (n : Nat) (mover : Fin 2) : Nat → Nat → List Loc
  | 0, _ => []
  | hand + 1, ringPos =>
      ringLoc n mover ringPos :: sowPathGo n mover hand ((ringPos + 1) % (2 * n + 1))

/-- `sowPath(st, rules, mover, pitIndex)`: one drop location per seed in the
source pit (JS locals `n` and `hand` are written inline), starting at ring
position `(pitIndex+1) % (2n+1)`.  An empty (or negative) hand yields the
empty path. -/
def sowPath (st : GameState) (rules : Rules) (mover : Fin 2) (pitIndex : Nat) : List Loc :=
  if getPit (pitsOf st mover) pitIndex ≤ 0 then []
  else sowPathGo rules.pitsPerSide mover (getPit (pitsOf st mover) pitIndex).toNat
    ((pitIndex + 1) % (2 * rules.pitsPerSide + 1))

/-- Deposit one seed at a drop location (the sowing loop body of
`playMove`). -/
def sowOne (st : GameState) (loc : Loc) : GameState :=
  match loc with
  | Loc.store side => addStore st side 1
  | Loc.pit side i => setPit st side i (getPit (pitsOf st side) i + 1)

/-- The state of `playMove` after emptying the source pit and sowing every
seed of the path. -/
def sowedState (st : GameState) (rules : Rules) (mover : Fin 2) (pi : Nat) : GameState :=
  (sowPath st rules mover pi).foldl sowOne (setPit st mover pi 0)

/-- The capture descriptor of a move result: JS `{happened:false}` or
`{happened:true, pit, oppPit, captured}`. -/
inductive CapInfo where
  | noCapture
  | captureAt (pit : Nat) (oppPit : Nat) (captured : Int)
deriving DecidableEq, Repr

/-- The side and index of the last drop of a path when that drop is a pit
placement (`last && last.kind === "pit"`), and `none` otherwise. -/
def lastPit (path : List Loc) : Option (Fin 2 × Nat) :=
  match path.getLast? with
  | some (Loc.pit side i) => some (side, i)
  | _ => none

/-- The standard-Kalah capture stage of `playMove`: evaluated only when the
last sown seed landed in a pit under the KALAH rule on the mover's side; it
fires when that pit was empty before the move and holds exactly one seed
now, and the opposite pit `n-1-i` is non-empty after sowing, transferring
both pits into the mover's store. -/
def captureStep (st : GameState) (rules : Rules) (mover : Fin 2) (pi : Nat) :
    GameState × CapInfo :=
  let n := rules.pitsPerSide
  let opp : Fin 2 := 1 - mover
  let ns := sowedState st rules mover pi
  match lastPit (sowPath st rules mover pi) with
  | some si =>
    if rules.captureRule = CaptureRule.kalah ∧ si.1 = mover then
      if getPit (pitsOf st mover) si.2 = 0 ∧ getPit (pitsOf ns mover) si.2 = 1 then
        if 0 < getPit (pitsOf ns opp) (n - 1 - si.2) then
          (addStore (setPit (setPit ns opp (n - 1 - si.2) 0) mover si.2 0) mover
            (getPit (pitsOf ns opp) (n - 1 - si.2) + 1),
           CapInfo.captureAt si.2 (n - 1 - si.2) (getPit (pitsOf ns opp) (n - 1 - si.2) + 1))
        else (ns, CapInfo.noCapture)
      else (ns, CapInfo.noCapture)
    else (ns, CapInfo.noCapture)
  | none => (ns, CapInfo.noCapture)

/-- JS `last && last.kind === "store" && last.side === mover`. -/
def lastIsMoverStore (path : List Loc) (mover : Fin 2) : Bool :=
  match path.getLast? with
  | some (Loc.store side) => side == mover
  | _ => false

/-- `ns.toMove = t` on a fresh copy: the turn-assignment step of
`playMove`. -/
def setToMove (s : GameState) (t : Fin 2) : GameState :=
  { s with toMove := t }

/-- The success payload of `playMove`. -/
structure MoveResult where
  state : GameState
  path : List Loc
  mover : Fin 2
  pitIndex : Nat
  extraTurn : Bool
  capture : CapInfo
  terminal : Bool
deriving DecidableEq, Repr

/-- `playMove(st, rules, pitIndex)`: validate the pit choice, sow, apply
capture, extra turn and terminal sweep, and return the new state plus move
metadata.  Failures are the tagged JS values `{ok:false, error}` and are
modelled as `Except.error`. -/
def playMove (st : GameState) (rules : Rules) (pitIndex : Int) : Except String MoveResult :=
  let n := rules.pitsPerSide
  let mover := st.toMove
  let opp : Fin 2 := 1 - mover
  if pitIndex < 0 ∨ (n : Int) ≤ pitIndex then .error "pitIndex out of range"
  else if rules.allowMoveFromEmpty = false ∧ getPit (pitsOf st mover) pitIndex.toNat = 0 then
    .error "empty pit"
  else
    let pi := pitIndex.toNat
    let path := sowPath st rules mover pi
    let stepped := captureStep st rules mover pi
    let extraTurn := rules.extraTurnOnStore && lastIsMoverStore path mover
    let ns3 := setToMove stepped.1 (if extraTurn then mover else opp)
    let terminalBeforeSweep := isTerminal ns3 rules
    let nsFinal := finalizeIfTerminal ns3 rules
    let terminal := isTerminal nsFinal rules
    .ok { state := nsFinal
          path := path
          mover := mover
          pitIndex := pi
          extraTurn := extraTurn
          capture := stepped.2
          terminal := terminalBeforeSweep || terminal }

/-- `pit1Index(rules)`: the pit closest to the store is index `n-1`. -/
def pit1Index (rules : Rules) : Nat := rules.pitsPerSide - 1

/-! ### `ai.js`: evaluation, move ordering, alpha-beta search

JS search values are floating-point numbers, but the only values that ever
arise are exact integers and the two infinities used as window bounds and
sentinels, so they are modelled by `XVal`. -/

/-- A search value: `-Infinity`, a finite (integer) score, or `Infinity`. -/
inductive XVal where
  | negInf
  | num (z : Int)
  | posInf
deriving DecidableEq, Repr

/-- JS `<` on search values. -/
def XVal.lt : XVal → XVal → Bool
  | negInf, negInf => false
  | negInf, _ => true
  | num _, negInf => false
  | num a, num b => a < b
  | num _, posInf => true
  | posInf, _ => false

/-- JS `Math.max(a, b)`. -/
def xmax (a b : XVal) : XVal := if XVal.lt a b then b else a

/-- JS `Math.min(a, b)`. -/
def xmin (a b : XVal) : XVal := if XVal.lt b a then b else a

/-- `evalCost(st, rules, rootP, startStoreP, startStoreO, repRoot)`: leaf
evaluation for the root player — ten times the net store swing, plus the
count of extra turns the root player earned on this line, plus five if the
root player's pit closest to the store is empty. -/
def evalCost (st : GameState) (rules : Rules) (rootP : Fin 2)
    (startStoreP startStoreO : Int) (repRoot : Int) : Int :=
  let o : Fin 2 := 1 - rootP
  let dp := storeOf st rootP - startStoreP
  let dO := storeOf st o - startStoreO
  let i1 := pit1Index rules
  let pit1Empty : Int := if getPit (pitsOf st rootP) i1 = 0 then 1 else 0
  10 * (dp - dO) + repRoot + 5 * pit1Empty

/-- Stable insert for the descending-by-score sort below: an element passes
the ones that score strictly higher and stops in front of the first one
scoring no higher, so equal scores keep their original order. -/
def insertByScoreDesc (x : Nat × Int) : List (Nat × Int) → List (Nat × Int)
  | [] => [x]
  | y :: ys => if x.2 < y.2 then y :: insertByScoreDesc x ys else x :: y :: ys

/-- The stable descending-by-score sort.  JS `scored.sort((a,b) => b.score -
a.score)` is (per ES2019) a stable sort by descending score, and the stable
sorted permutation is unique, so this insertion sort computes exactly the JS
result. -/
def sortByScoreDesc : List (Nat × Int) → List (Nat × Int)
  | [] => []
  | x :: xs => insertByScoreDesc x (sortByScoreDesc xs)

/-- The per-move heuristic score of `orderMoves`: 1000 for an extra turn,
200 for a capture, plus the mover's own store gain; `-1e18` for a move that
fails to apply. -/
def orderScore (st : GameState) (rules : Rules) (mv : Nat) : Int :=
  match playMove st rules (mv : Int) with
  | .error _ => -(10 ^ 18)
  | .ok res =>
    let extra : Int := if res.extraTurn then 1000 else 0
    let cap : Int := match res.capture with
      | CapInfo.noCapture => 0
      | CapInfo.captureAt _ _ _ => 200
    let storeGain := storeOf res.state st.toMove - storeOf st st.toMove
    extra + cap + storeGain

/-- `orderMoves(st, rules, moves)`: score every candidate by simulating it,
sort descending (stably), and return the moves in that order. -/
def orderMoves (st : GameState) (rules : Rules) (moves : List Nat) : List Nat :=
  (sortByScoreDesc (moves.map fun mv => (mv, orderScore st rules mv))).map (·.1)

/-- The `for (const mv of ordered)` loop of `alphabeta`, for both the
maximizing and the minimizing player.  `ab` is the recursive call at depth
`depth - 1`; the loop carries the running best value and the window bound it
narrows, and stops on `alpha >= beta`. -/
def abLoop (st : GameState) (rules : Rules) (rootP : Fin 2)
    (ab : GameState → XVal → XVal → Int → XVal)
    (maximizing : Bool) (repRoot : Int) :
    List Nat → XVal → XVal → XVal → XVal
  | [], _, _, best => best
  | mv :: rest, alpha, beta, best =>
    match playMove st rules (mv : Int) with
    | .error _ => abLoop st rules rootP ab maximizing repRoot rest alpha beta best
    | .ok res =>
      let rep2 := if res.mover = rootP ∧ res.extraTurn = true then repRoot + 1 else repRoot
      let v := ab res.state alpha beta rep2
      if maximizing then
        let best2 := xmax best v
        let alpha2 := xmax alpha best2
        if XVal.lt alpha2 beta then
          abLoop st rules rootP ab maximizing repRoot rest alpha2 beta best2
        else best2
      else
        let best2 := xmin best v
        let beta2 := xmin beta best2
        if XVal.lt alpha beta2 then
          abLoop st rules rootP ab maximizing repRoot rest alpha beta2 best2
        else best2

/-- `alphabeta(st, rules, depth, alpha, beta, rootP, startStoreP,
startStoreO, repRoot)`.  The JS leaf test is `depth <= 0 || st.terminal`;
the states handed to the search are plain game states, which carry no
`terminal` field (that field lives on move results), so the second disjunct
reads `undefined` and is always falsy — only the depth test and the
no-legal-move fallback end the recursion.  All callers pass a non-negative
depth, modelled as `Nat` (so `depth <= 0` is `depth = 0`). -/
def alphabeta (rules : Rules) (rootP : Fin 2) (startStoreP startStoreO : Int) :
    Nat → GameState → XVal → XVal → Int → XVal
  | 0, st, _, _, repRoot =>
    XVal.num (evalCost st rules rootP startStoreP startStoreO repRoot)
  | d + 1, st, alpha, beta, repRoot =>
    let moves := getValidMoves st rules
    if moves = [] then
      XVal.num (evalCost st rules rootP startStoreP startStoreO repRoot)
    else
      let maximizing : Bool := st.toMove == rootP
      let ordered := orderMoves st rules moves
      abLoop st rules rootP (alphabeta rules rootP startStoreP startStoreO d)
        maximizing repRoot ordered alpha beta
        (if maximizing then XVal.negInf else XVal.posInf)

/-- The return value of `bestMove`: `{hasMove, move, score}` (move `-1` and
score `-Infinity` when no move is available). -/
structure BestMove where
  hasMove : Bool
  move : Int
  score : XVal
deriving DecidableEq, Repr

/-- The root loop of `bestMove`: track the best move and score, raising
`alpha` to the running best score after each candidate (`beta` stays
`Infinity`). -/
def bmLoop (st : GameState) (rules : Rules) (d : Nat) (rootP : Fin 2)
    (startStoreP startStoreO : Int) :
    List Nat → XVal → Int → XVal → Int × XVal
  | [], _, bestMv, bestScore => (bestMv, bestScore)
  | mv :: rest, alpha, bestMv, bestScore =>
    match playMove st rules (mv : Int) with
    | .error _ => bmLoop st rules d rootP startStoreP startStoreO rest alpha bestMv bestScore
    | .ok res =>
      let repRoot : Int := if res.mover = rootP ∧ res.extraTurn = true then 1 else 0
      let v := alphabeta rules rootP startStoreP startStoreO d res.state alpha XVal.posInf repRoot
      let upd := if XVal.lt bestScore v then ((mv : Int), v) else (bestMv, bestScore)
      bmLoop st rules d rootP startStoreP startStoreO rest (xmax alpha upd.2) upd.1 upd.2

/-- `bestMove(st, rules, depth)`: recommend a move for `st.toMove` by
alpha-beta minimax.  A non-positive requested depth still searches one
ply. -/
def bestMove (st : GameState) (rules : Rules) (depth : Int) : BestMove :=
  match getValidMoves st rules with
  | [] => { hasMove := false, move := -1, score := XVal.negInf }
  | m0 :: rest =>
    let moves := m0 :: rest
    let rootP := st.toMove
    let startStoreP := storeOf st rootP
    let startStoreO := storeOf st (1 - rootP)
    let searchDepth : Nat := if depth ≤ 0 then 1 else depth.toNat
    let ordered := orderMoves st rules moves
    let out := bmLoop st rules (searchDepth - 1) rootP startStoreP startStoreO
      ordered XVal.negInf (m0 : Int) XVal.negInf
    { hasMove := true, move := out.1, score := out.2 }

/-- One recursive `alphabeta` call made by the root loop of `bestMove`: the
candidate move, the window `(alpha, beta)` it was searched with, the
`repRoot` seed, and the value it returned. -/
structure RootCall where
  mv : Nat
  alpha : XVal
  beta : XVal
  rep : Int
  val : XVal
deriving DecidableEq, Repr

/-- Instrumented replay of `bmLoop`: the same control flow and the same
`alpha` / running-best updates, recording every recursive call the root loop
makes instead of the final best pair. -/
def bmTraceLoop (st : GameState) (rules : Rules) (d : Nat) (rootP : Fin 2)
    (startStoreP startStoreO : Int) :
    List Nat → XVal → XVal → List RootCall
  | [], _, _ => []
  | mv :: rest, alpha, bestScore =>
    match playMove st rules (mv : Int) with
    | .error _ => bmTraceLoop st rules d rootP startStoreP startStoreO rest alpha bestScore
    | .ok res =>
      let repRoot : Int := if res.mover = rootP ∧ res.extraTurn = true then 1 else 0
      let v := alphabeta rules rootP startStoreP startStoreO d res.state alpha XVal.posInf repRoot
      let bestScore2 := if XVal.lt bestScore v then v else bestScore
      { mv := mv, alpha := alpha, beta := XVal.posInf, rep := repRoot, val := v } ::
        bmTraceLoop st rules d rootP startStoreP startStoreO rest (xmax alpha bestScore2) bestScore2

/-- The sequence of recursive `alphabeta` calls `bestMove st rules depth`
makes at the root, in evaluation order. -/
def rootTrace (st : GameState) (rules : Rules) (depth : Int) : List RootCall :=
  match getValidMoves st rules with
  | [] => []
  | m0 :: rest =>
    let moves := m0 :: rest
    let rootP := st.toMove
    let startStoreP := storeOf st rootP
    let startStoreO := storeOf st (1 - rootP)
    let searchDepth : Nat := if depth ≤ 0 then 1 else depth.toNat
    bmTraceLoop st rules (searchDepth - 1) rootP startStoreP startStoreO
      (orderMoves st rules moves) XVal.negInf XVal.negInf

/-- Placeholder entry for positional reads of a root trace. -/
def rcDflt : RootCall := ⟨0, XVal.negInf, XVal.negInf, 0, XVal.negInf⟩

/-- First-wins argmax over a recorded root trace: the update rule of
`bmLoop` (`val > bestScore`), so ties keep the earlier candidate. -/
def firstArgmax : List RootCall → Int → XVal → Int × XVal
  | [], m, s => (m, s)
  | e :: rest, m, s =>
    if XVal.lt s e.val then firstArgmax rest (e.mv : Int) e.val else firstArgmax rest m s

/-! ### Invariants, reachability and measures used by the claims -/

/-- Total seed count of a state. -/
def sumState (st : GameState) : Int :=
  st.pits0.sum + st.pits1.sum + st.store0 + st.store1

/-- Shape invariant of the data model: both pit arrays have length
`pitsPerSide`.  Every state built by the exported constructors satisfies
it. -/
def WF (st : GameState) (rules : Rules) : Prop :=
  st.pits0.length = rules.pitsPerSide ∧ st.pits1.length = rules.pitsPerSide

/-- Content invariant of the data model: all pit and store counts are
non-negative. -/
def NonNeg (st : GameState) : Prop :=
  (∀ x ∈ st.pits0, 0 ≤ x) ∧ (∀ x ∈ st.pits1, 0 ≤ x) ∧ 0 ≤ st.store0 ∧ 0 ≤ st.store1

/-- `ReachesN rules k s t`: `t` arises from `s` by `k` successful
`playMove` applications (a play line of length `k`). -/
inductive ReachesN (rules : Rules) : Nat → GameState → GameState → Prop
  | refl (s : GameState) : ReachesN rules 0 s s
  | step {k : Nat} {s t : GameState} {mv : Int} {res : MoveResult} :
      ReachesN rules k s t → playMove t rules mv = .ok res →
      ReachesN rules (k + 1) s res.state

/-- `t` arises from `s` by some sequence of successful moves. -/
def Reaches (rules : Rules) (s t : GameState) : Prop := ∃ k, ReachesN rules k s t

/-- Combined store count of a state. -/
def storeSum (st : GameState) : Int := st.store0 + st.store1

/-- Position-weighted pit sum `wsum [a 0, a 1, ...] = Σ i * a i`, written
with the recurrence `wsum (a :: t) = wsum t + sum t`. -/
def wsum : List Int → Int
  | [] => 0
  | _ :: t => wsum t + t.sum

/-- Drift measure: the position-weighted sum of both pit arrays.  A move
sowing no seed into a store, capturing nothing and sweeping nothing moves
each sown seed at least one pit closer to the mover's store, strictly
increasing this measure. -/
def phi (st : GameState) : Int := wsum st.pits0 + wsum st.pits1

/-- Number of store drops in a sowing path. -/
def storeLocCount : List Loc → Nat
  | [] => 0
  | Loc.store _ :: t => storeLocCount t + 1
  | Loc.pit _ _ :: t => storeLocCount t

/-- Sum of the pit indices of the pit drops in a sowing path. -/
def pitIdxSum : List Loc → Int
  | [] => 0
  | Loc.store _ :: t => pitIdxSum t
  | Loc.pit _ i :: t => (i : Int) + pitIdxSum t

/-- Pit drops of this location stay below `n` (store drops impose
nothing). -/
def pitIdxLt (n : Nat) : Loc → Prop
  | Loc.pit _ i => i < n
  | Loc.store _ => True

/-- Seeds a capture moved into the mover's store. -/
def capAdd : CapInfo → Int
  | CapInfo.noCapture => 0
  | CapInfo.captureAt _ _ c => c

/-- Strict lexicographic increase of `(storeSum, phi)`: the measure along
which every successful move under `allowMoveFromEmpty = false` strictly
climbs. -/
def MeasLt (s t : GameState) : Prop :=
  storeSum s < storeSum t ∨ (storeSum s = storeSum t ∧ phi s < phi t)

/-! ### Concrete fixtures for witnesses and counterexamples -/

/-- One pit per side, one seed per pit, standard Kalah options. -/
def rulesA : Rules := ⟨1, 1, true, true, CaptureRule.kalah, false⟩

/-- Two pits per side, one seed per pit, standard Kalah options. -/
def rulesB : Rules := ⟨2, 1, true, true, CaptureRule.kalah, false⟩

/-- Two pits per side, used with hand-built midgame states. -/
def rulesC : Rules := ⟨2, 0, true, true, CaptureRule.kalah, false⟩

/-- Two pits per side with `allowMoveFromEmpty = true`. -/
def rulesE : Rules := ⟨2, 1, true, true, CaptureRule.kalah, true⟩

/-- A terminal state (side 1 empty) whose mover still has a legal move. -/
def stTermMovable : GameState := ⟨[1], [0], 0, 0, 0⟩

/-- A state with an empty pit on each side, for the no-op move cycle under
`allowMoveFromEmpty = true`. -/
def stCycle : GameState := ⟨[0, 1], [0, 1], 0, 0, 0⟩

/-- A terminal state (side 0 empty) with seeds left to sweep on side 1. -/
def stSweep : GameState := ⟨[0, 0], [3, 4], 1, 2, 0⟩

/-- `stCycle` after one no-op move: only `toMove` differs. -/
def stCycleB : GameState := ⟨[0, 1], [0, 1], 0, 0, 1⟩

/-- Wrap-around sowing fixture: playing pit 0 (six seeds, ring length five)
drops the last seed in own pit 1, which was empty before the move but ends
holding two seeds, so the engine does not capture. -/
def stWrap : GameState := ⟨[6, 0], [5, 9], 0, 0, 0⟩

/-- Plain capture fixture: playing pit 0 lands the single seed in own empty
pit 1 and captures opposite pit 0. -/
def stCap : GameState := ⟨[1, 0], [3, 5], 0, 0, 0⟩

/-! ## List arithmetic helpers -/

theorem sum_set_int (l : List Int) (i : Nat) (v : Int) (h : i < l.length) :
    (l.set i v).sum = l.sum - l.getD i 0 + v := by
  induction l generalizing i with
  | nil => simp at h
  | cons a t ih =>
    cases i with
    | zero => simp [List.set]; ring
    | succ j =>
      simp only [List.set, List.sum_cons, List.getD_cons_succ]
      rw [ih j (by simpa using h)]
      ring

theorem getD_set_self (l : List Int) (i : Nat) (v : Int) (h : i < l.length) :
    (l.set i v).getD i 0 = v := by
  rw [List.getD_eq_getElem _ _ (by simpa using h)]
  exact List.getElem_set_eq (by simpa using h)

theorem getD_set_ne (l : List Int) {i j : Nat} (v : Int) (h : i ≠ j) :
    (l.set j v).getD i 0 = l.getD i 0 := by
  rcases Nat.lt_or_ge i l.length with hi | hi
  · rw [List.getD_eq_getElem _ _ (by simpa using hi), List.getD_eq_getElem _ _ hi]
    exact List.getElem_set_ne (Ne.symm h) _
  · rw [List.getD_eq_default _ _ (by simpa using hi), List.getD_eq_default _ _ hi]

theorem getD_set_zero (l : List Int) (i : Nat) : (l.set i (0 : Int)).getD i 0 = 0 := by
  rcases Nat.lt_or_ge i l.length with hi | hi
  · exact getD_set_self l i 0 hi
  · exact List.getD_eq_default _ _ (by simpa using hi)

theorem getD_nonneg {l : List Int} (h : ∀ x ∈ l, 0 ≤ x) (i : Nat) : 0 ≤ l.getD i 0 := by
  rcases Nat.lt_or_ge i l.length with hi | hi
  · rw [List.getD_eq_getElem l 0 hi]
    exact h _ (List.getElem_mem hi)
  · rw [List.getD_eq_default l 0 hi]

theorem nonneg_set {l : List Int} {i : Nat} {v : Int}
    (h : ∀ x ∈ l, 0 ≤ x) (hv : 0 ≤ v) : ∀ x ∈ l.set i v, 0 ≤ x := by
  intro x hx
  rcases List.mem_or_eq_of_mem_set hx with hx | rfl
  · exact h x hx
  · exact hv

theorem sum_map_zero (l : List Int) : (l.map fun _ => (0 : Int)).sum = 0 := by
  induction l with
  | nil => rfl
  | cons a t ih => simpa using ih

theorem wsum_set (l : List Int) (i : Nat) (v : Int) (h : i < l.length) :
    wsum (l.set i v) = wsum l + (i : Int) * (v - l.getD i 0) := by
  induction l generalizing i with
  | nil => simp at h
  | cons a t ih =>
    cases i with
    | zero => simp [List.set, wsum]
    | succ j =>
      simp only [List.set, wsum, List.getD_cons_succ]
      rw [ih j (by simpa using h), sum_set_int t j v (by simpa using h)]
      push_cast
      ring

theorem wsum_nonneg {l : List Int} (h : ∀ x ∈ l, 0 ≤ x) : 0 ≤ wsum l := by
  induction l with
  | nil => simp [wsum]
  | cons a t ih =>
    have ht : ∀ x ∈ t, 0 ≤ x := fun x hx => h x (List.mem_cons_of_mem a hx)
    have := List.sum_nonneg ht
    have := ih ht
    simp only [wsum]
    omega

theorem wsum_map_zero (l : List Int) : wsum (l.map fun _ => (0 : Int)) = 0 := by
  induction l with
  | nil => rfl
  | cons a t ih => simp only [List.map_cons, wsum, ih, sum_map_zero, add_zero]

theorem all_zero_of_sum_zero {l : List Int} (h : ∀ x ∈ l, 0 ≤ x) (hs : l.sum = 0) :
    ∀ x ∈ l, x = 0 := by
  induction l with
  | nil => simp
  | cons a t ih =>
    have ha : 0 ≤ a := h a (List.mem_cons_self a t)
    have ht : ∀ x ∈ t, 0 ≤ x := fun x hx => h x (List.mem_cons_of_mem a hx)
    have hts : 0 ≤ t.sum := List.sum_nonneg ht
    have hsum : a + t.sum = 0 := by simpa using hs
    intro x hx
    rcases List.mem_cons.mp hx with rfl | hx
    · omega
    · exact ih ht (by omega) x hx

theorem sum_eq_zero_of_all_zero {l : List Int} (h : ∀ x ∈ l, x = 0) : l.sum = 0 := by
  induction l with
  | nil => rfl
  | cons a t ih =>
    have ha := h a (List.mem_cons_self a t)
    have ht : ∀ x ∈ t, x = 0 := fun x hx => h x (List.mem_cons_of_mem a hx)
    simp [ha, ih ht]

theorem wsum_eq_zero_of_all_zero {l : List Int} (h : ∀ x ∈ l, x = 0) : wsum l = 0 := by
  induction l with
  | nil => rfl
  | cons a t ih =>
    have ht : ∀ x ∈ t, x = 0 := fun x hx => h x (List.mem_cons_of_mem a hx)
    simp [wsum, ih ht, sum_eq_zero_of_all_zero ht]

/-! ## Side (`Fin 2`) and state accessor helpers -/

theorem fin2_eq : ∀ side : Fin 2, side = 0 ∨ side = 1 := by decide

theorem opp_ne_self : ∀ m : Fin 2, 1 - m ≠ m := by decide

theorem pitsOf_zero (s : GameState) : pitsOf s 0 = s.pits0 := rfl

theorem pitsOf_one (s : GameState) : pitsOf s 1 = s.pits1 := rfl

theorem storeOf_zero (s : GameState) : storeOf s 0 = s.store0 := rfl

theorem storeOf_one (s : GameState) : storeOf s 1 = s.store1 := rfl

theorem setPit_zero (s : GameState) (i : Nat) (v : Int) :
    setPit s 0 i v = { s with pits0 := s.pits0.set i v } := rfl

theorem setPit_one (s : GameState) (i : Nat) (v : Int) :
    setPit s 1 i v = { s with pits1 := s.pits1.set i v } := rfl

theorem addStore_zero (s : GameState) (v : Int) :
    addStore s 0 v = { s with store0 := s.store0 + v } := rfl

theorem addStore_one (s : GameState) (v : Int) :
    addStore s 1 v = { s with store1 := s.store1 + v } := rfl

theorem pitsOf_setPit_self (s : GameState) (side : Fin 2) (i : Nat) (v : Int) :
    pitsOf (setPit s side i v) side = (pitsOf s side).set i v := by
  rcases fin2_eq side with rfl | rfl <;>
    simp [setPit_zero, setPit_one, pitsOf_zero, pitsOf_one]

theorem pitsOf_setPit_other (s : GameState) {side other : Fin 2} (h : other ≠ side)
    (i : Nat) (v : Int) : pitsOf (setPit s side i v) other = pitsOf s other := by
  rcases fin2_eq side with rfl | rfl <;> rcases fin2_eq other with rfl | rfl <;>
    simp_all [setPit_zero, setPit_one, pitsOf_zero, pitsOf_one]

theorem storeOf_setPit (s : GameState) (side other : Fin 2) (i : Nat) (v : Int) :
    storeOf (setPit s side i v) other = storeOf s other := by
  rcases fin2_eq side with rfl | rfl <;> rcases fin2_eq other with rfl | rfl <;>
    simp [setPit_zero, setPit_one, storeOf_zero, storeOf_one]

theorem toMove_setPit (s : GameState) (side : Fin 2) (i : Nat) (v : Int) :
    (setPit s side i v).toMove = s.toMove := by
  rcases fin2_eq side with rfl | rfl <;> simp [setPit_zero, setPit_one]

theorem pitsOf_addStore (s : GameState) (side other : Fin 2) (v : Int) :
    pitsOf (addStore s side v) other = pitsOf s other := by
  rcases fin2_eq side with rfl | rfl <;> rcases fin2_eq other with rfl | rfl <;>
    simp [addStore_zero, addStore_one, pitsOf_zero, pitsOf_one]

theorem storeOf_addStore_self (s : GameState) (side : Fin 2) (v : Int) :
    storeOf (addStore s side v) side = storeOf s side + v := by
  rcases fin2_eq side with rfl | rfl <;>
    simp [addStore_zero, addStore_one, storeOf_zero, storeOf_one]

theorem storeOf_addStore_other (s : GameState) {side other : Fin 2} (h : other ≠ side)
    (v : Int) : storeOf (addStore s side v) other = storeOf s other := by
  rcases fin2_eq side with rfl | rfl <;> rcases fin2_eq other with rfl | rfl <;>
    simp_all [addStore_zero, addStore_one, storeOf_zero, storeOf_one]

theorem toMove_addStore (s : GameState) (side : Fin 2) (v : Int) :
    (addStore s side v).toMove = s.toMove := by
  rcases fin2_eq side with rfl | rfl <;> simp [addStore_zero, addStore_one]

theorem sumState_setPit (s : GameState) (side : Fin 2) (i : Nat) (v : Int)
    (h : i < (pitsOf s side).length) :
    sumState (setPit s side i v) = sumState s - (pitsOf s side).getD i 0 + v := by
  rcases fin2_eq side with rfl | rfl
  · simp only [pitsOf_zero] at h ⊢
    simp only [setPit_zero, sumState]
    rw [sum_set_int _ _ _ h]; ring
  · simp only [pitsOf_one] at h ⊢
    simp only [setPit_one, sumState]
    rw [sum_set_int _ _ _ h]; ring

theorem sumState_addStore (s : GameState) (side : Fin 2) (v : Int) :
    sumState (addStore s side v) = sumState s + v := by
  rcases fin2_eq side with rfl | rfl <;>
    · simp only [addStore_zero, addStore_one, sumState]
      ring

theorem storeSum_setPit (s : GameState) (side : Fin 2) (i : Nat) (v : Int) :
    storeSum (setPit s side i v) = storeSum s := by
  rcases fin2_eq side with rfl | rfl <;> simp [setPit_zero, setPit_one, storeSum]

theorem storeSum_addStore (s : GameState) (side : Fin 2) (v : Int) :
    storeSum (addStore s side v) = storeSum s + v := by
  rcases fin2_eq side with rfl | rfl <;>
    · simp only [addStore_zero, addStore_one, storeSum]
      ring

theorem phi_setPit (s : GameState) (side : Fin 2) (i : Nat) (v : Int)
    (h : i < (pitsOf s side).length) :
    phi (setPit s side i v) = phi s + (i : Int) * (v - (pitsOf s side).getD i 0) := by
  rcases fin2_eq side with rfl | rfl
  · simp only [pitsOf_zero] at h ⊢
    simp only [setPit_zero, phi]
    rw [wsum_set _ _ _ h]; ring
  · simp only [pitsOf_one] at h ⊢
    simp only [setPit_one, phi]
    rw [wsum_set _ _ _ h]; ring

theorem phi_addStore (s : GameState) (side : Fin 2) (v : Int) :
    phi (addStore s side v) = phi s := by
  rcases fin2_eq side with rfl | rfl <;> simp [addStore_zero, addStore_one, phi]

theorem length_setPit (s : GameState) (side side2 : Fin 2) (i : Nat) (v : Int) :
    (pitsOf (setPit s side i v) side2).length = (pitsOf s side2).length := by
  rcases fin2_eq side with rfl | rfl <;> rcases fin2_eq side2 with rfl | rfl <;>
    simp [setPit_zero, setPit_one, pitsOf_zero, pitsOf_one]

theorem nonneg_setPit {s : GameState} (side : Fin 2) (i : Nat) {v : Int}
    (h : NonNeg s) (hv : 0 ≤ v) : NonNeg (setPit s side i v) := by
  obtain ⟨h0, h1, hs0, hs1⟩ := h
  rcases fin2_eq side with rfl | rfl
  · exact ⟨by simpa [setPit_zero] using nonneg_set h0 hv,
      by simpa [setPit_zero] using h1,
      by simpa [setPit_zero] using hs0, by simpa [setPit_zero] using hs1⟩
  · exact ⟨by simpa [setPit_one] using h0,
      by simpa [setPit_one] using nonneg_set h1 hv,
      by simpa [setPit_one] using hs0, by simpa [setPit_one] using hs1⟩

theorem nonneg_addStore {s : GameState} (side : Fin 2) {v : Int}
    (h : NonNeg s) (hv : 0 ≤ v) : NonNeg (addStore s side v) := by
  obtain ⟨h0, h1, hs0, hs1⟩ := h
  rcases fin2_eq side with rfl | rfl
  · exact ⟨by simpa [addStore_zero] using h0, by simpa [addStore_zero] using h1,
      by simp [addStore_zero]; omega, by simpa [addStore_zero] using hs1⟩
  · exact ⟨by simpa [addStore_one] using h0, by simpa [addStore_one] using h1,
      by simpa [addStore_one] using hs0, by simp [addStore_one]; omega⟩

theorem getPit_eq (l : List Int) (i : Nat) : getPit l i = l.getD i 0 := rfl

theorem length_pitsOf {s : GameState} {rules : Rules}
    (h0 : s.pits0.length = rules.pitsPerSide) (h1 : s.pits1.length = rules.pitsPerSide)
    (side : Fin 2) : (pitsOf s side).length = rules.pitsPerSide := by
  rcases fin2_eq side with rfl | rfl <;> simpa [pitsOf_zero, pitsOf_one]

/-! ## Sowing path lemmas -/

theorem sowPathGo_length (n : Nat) (m : Fin 2) (h p : Nat) :
    (sowPathGo n m h p).length = h := by
  induction h generalizing p with
  | zero => rfl
  | succ k ih => simp [sowPathGo, ih]

theorem ringLoc_pitIdxLt (n : Nat) (m : Fin 2) (p : Nat) (hp : p < 2 * n + 1) :
    pitIdxLt n (ringLoc n m p) := by
  unfold ringLoc
  split
  · next h => exact h
  · split
    · exact True.intro
    · next h h2 =>
      show p - (n + 1) < n
      omega

theorem ringLoc_ne_opp_store (n : Nat) (m : Fin 2) (p : Nat) :
    ringLoc n m p ≠ Loc.store (1 - m) := by
  unfold ringLoc
  split
  · simp
  · split
    · intro hEq
      exact opp_ne_self m (by injection hEq with h; exact h.symm)
    · simp

theorem sowPathGo_pitIdxLt (n : Nat) (m : Fin 2) :
    ∀ (h p : Nat), p < 2 * n + 1 → ∀ loc ∈ sowPathGo n m h p, pitIdxLt n loc := by
  intro h
  induction h with
  | zero => intro p _ loc hloc; simp [sowPathGo] at hloc
  | succ k ih =>
    intro p hp loc hloc
    rcases List.mem_cons.mp hloc with rfl | hloc
    · exact ringLoc_pitIdxLt n m p hp
    · exact ih _ (Nat.mod_lt _ (by omega)) loc hloc

theorem sowPathGo_ne_opp_store (n : Nat) (m : Fin 2) :
    ∀ (h p : Nat), ∀ loc ∈ sowPathGo n m h p, loc ≠ Loc.store (1 - m) := by
  intro h
  induction h with
  | zero => intro p loc hloc; simp [sowPathGo] at hloc
  | succ k ih =>
    intro p loc hloc
    rcases List.mem_cons.mp hloc with rfl | hloc
    · exact ringLoc_ne_opp_store n m p
    · exact ih _ loc hloc

theorem sowPathGo_getD (n : Nat) (m : Fin 2) :
    ∀ (h p k : Nat), p < 2 * n + 1 → k < h →
      (sowPathGo n m h p).getD k (Loc.store m) = ringLoc n m ((p + k) % (2 * n + 1)) := by
  intro h
  induction h with
  | zero => intro p k _ hk; omega
  | succ hh ih =>
    intro p k hp hk
    cases k with
    | zero =>
      simp [sowPathGo, Nat.mod_eq_of_lt hp]
    | succ kk =>
      show (sowPathGo n m hh ((p + 1) % (2 * n + 1))).getD kk (Loc.store m) = _
      rw [ih ((p + 1) % (2 * n + 1)) kk (Nat.mod_lt _ (by omega)) (by omega)]
      congr 1
      rw [Nat.mod_add_mod]
      congr 1
      omega

theorem sowPath_length {st : GameState} {rules : Rules} {mover : Fin 2} {pi : Nat}
    (hNN : 0 ≤ getPit (pitsOf st mover) pi) :
    ((sowPath st rules mover pi).length : Int) = getPit (pitsOf st mover) pi := by
  unfold sowPath
  split
  · next h => simp; omega
  · next h =>
    rw [sowPathGo_length]
    omega

theorem sowPath_pitIdxLt (st : GameState) (rules : Rules) (mover : Fin 2) (pi : Nat) :
    ∀ loc ∈ sowPath st rules mover pi, pitIdxLt rules.pitsPerSide loc := by
  unfold sowPath
  split
  · simp
  · exact sowPathGo_pitIdxLt _ _ _ _ (Nat.mod_lt _ (by omega))

theorem sowPath_ne_opp_store (st : GameState) (rules : Rules) (mover : Fin 2) (pi : Nat) :
    ∀ loc ∈ sowPath st rules mover pi, loc ≠ Loc.store (1 - mover) := by
  unfold sowPath
  split
  · simp
  · exact sowPathGo_ne_opp_store _ _ _ _

/-! ## The sowing fold -/

theorem sowOne_facts (rules : Rules) (s : GameState) (loc : Loc)
    (hloc : pitIdxLt rules.pitsPerSide loc)
    (h0 : s.pits0.length = rules.pitsPerSide) (h1 : s.pits1.length = rules.pitsPerSide) :
    (sowOne s loc).pits0.length = rules.pitsPerSide ∧
    (sowOne s loc).pits1.length = rules.pitsPerSide ∧
    sumState (sowOne s loc) = sumState s + 1 ∧
    storeSum (sowOne s loc) = storeSum s + storeLocCount [loc] ∧
    phi (sowOne s loc) = phi s + pitIdxSum [loc] ∧
    (sowOne s loc).toMove = s.toMove ∧
    (NonNeg s → NonNeg (sowOne s loc)) := by
  cases loc with
  | store side =>
    refine ⟨?_, ?_, ?_, ?_, ?_, ?_, ?_⟩
    · show (addStore s side 1).pits0.length = rules.pitsPerSide
      rw [← pitsOf_zero, pitsOf_addStore, pitsOf_zero]
      exact h0
    · show (addStore s side 1).pits1.length = rules.pitsPerSide
      rw [← pitsOf_one, pitsOf_addStore, pitsOf_one]
      exact h1
    · exact sumState_addStore s side 1
    · show storeSum (addStore s side 1) = storeSum s + ((0 : Nat) + 1 : Nat)
      rw [storeSum_addStore]
      simp [storeLocCount]
    · show phi (addStore s side 1) = phi s + pitIdxSum [Loc.store side]
      rw [phi_addStore]
      simp [pitIdxSum]
    · exact toMove_addStore s side 1
    · exact fun h => nonneg_addStore side h (by omega)
  | pit side i =>
    have hi : i < rules.pitsPerSide := hloc
    have hlen : i < (pitsOf s side).length := by rw [length_pitsOf h0 h1 side]; exact hi
    refine ⟨?_, ?_, ?_, ?_, ?_, ?_, ?_⟩
    · show (setPit s side i (getPit (pitsOf s side) i + 1)).pits0.length = rules.pitsPerSide
      rw [← pitsOf_zero, length_setPit, pitsOf_zero]
      exact h0
    · show (setPit s side i (getPit (pitsOf s side) i + 1)).pits1.length = rules.pitsPerSide
      rw [← pitsOf_one, length_setPit, pitsOf_one]
      exact h1
    · show sumState (setPit s side i (getPit (pitsOf s side) i + 1)) = sumState s + 1
      rw [sumState_setPit s side i _ hlen, getPit_eq]
      ring
    · show storeSum (setPit s side i (getPit (pitsOf s side) i + 1)) =
        storeSum s + (storeLocCount [Loc.pit side i] : Nat)
      rw [storeSum_setPit]
      simp [storeLocCount]
    · show phi (setPit s side i (getPit (pitsOf s side) i + 1)) =
        phi s + pitIdxSum [Loc.pit side i]
      rw [phi_setPit s side i _ hlen, getPit_eq]
      simp [pitIdxSum]
    · exact toMove_setPit s side i _
    · intro h
      refine nonneg_setPit side i h ?_
      have hge : 0 ≤ getPit (pitsOf s side) i := by
        rcases fin2_eq side with rfl | rfl
        · simpa [getPit_eq, pitsOf_zero] using getD_nonneg h.1 i
        · simpa [getPit_eq, pitsOf_one] using getD_nonneg h.2.1 i
      omega

theorem sowSeq_facts (rules : Rules) :
    ∀ (path : List Loc) (s : GameState),
      (∀ loc ∈ path, pitIdxLt rules.pitsPerSide loc) →
      s.pits0.length = rules.pitsPerSide → s.pits1.length = rules.pitsPerSide →
      (path.foldl sowOne s).pits0.length = rules.pitsPerSide ∧
      (path.foldl sowOne s).pits1.length = rules.pitsPerSide ∧
      sumState (path.foldl sowOne s) = sumState s + path.length ∧
      storeSum (path.foldl sowOne s) = storeSum s + storeLocCount path ∧
      phi (path.foldl sowOne s) = phi s + pitIdxSum path ∧
      (path.foldl sowOne s).toMove = s.toMove ∧
      (NonNeg s → NonNeg (path.foldl sowOne s)) := by
  intro path
  induction path with
  | nil =>
    intro s _ h0 h1
    exact ⟨h0, h1, by simp [List.foldl], by simp [List.foldl, storeLocCount],
      by simp [List.foldl, pitIdxSum], rfl, fun h => h⟩
  | cons loc rest ih =>
    intro s hloc h0 h1
    have hstep := sowOne_facts rules s loc (hloc loc (List.mem_cons_self loc rest)) h0 h1
    obtain ⟨e0, e1, esum, estore, ephi, emove, enn⟩ := hstep
    have hrest : ∀ l ∈ rest, pitIdxLt rules.pitsPerSide l :=
      fun l hl => hloc l (List.mem_cons_of_mem loc hl)
    have hrec := ih (sowOne s loc) hrest e0 e1
    obtain ⟨f0, f1, fsum, fstore, fphi, fmove, fnn⟩ := hrec
    refine ⟨f0, f1, ?_, ?_, ?_, ?_, ?_⟩
    · show sumState ((loc :: rest).foldl sowOne s) = _
      rw [List.foldl_cons, fsum, esum]
      simp
      ring
    · show storeSum ((loc :: rest).foldl sowOne s) = _
      rw [List.foldl_cons, fstore, estore]
      cases loc <;> simp [storeLocCount] <;> ring
    · show phi ((loc :: rest).foldl sowOne s) = _
      rw [List.foldl_cons, fphi, ephi]
      cases loc <;> simp [pitIdxSum] <;> ring
    · show ((loc :: rest).foldl sowOne s).toMove = _
      rw [List.foldl_cons, fmove, emove]
    · intro h
      show NonNeg ((loc :: rest).foldl sowOne s)
      rw [List.foldl_cons]
      exact fnn (enn h)

/-! ## The sowed state -/

theorem sowedState_facts (st : GameState) (rules : Rules) (mover : Fin 2) (pi : Nat)
    (hpi : pi < rules.pitsPerSide)
    (h0 : st.pits0.length = rules.pitsPerSide) (h1 : st.pits1.length = rules.pitsPerSide) :
    (sowedState st rules mover pi).pits0.length = rules.pitsPerSide ∧
    (sowedState st rules mover pi).pits1.length = rules.pitsPerSide ∧
    sumState (sowedState st rules mover pi) =
      sumState st - getPit (pitsOf st mover) pi + (sowPath st rules mover pi).length ∧
    storeSum (sowedState st rules mover pi) =
      storeSum st + storeLocCount (sowPath st rules mover pi) ∧
    phi (sowedState st rules mover pi) =
      phi st - (pi : Int) * getPit (pitsOf st mover) pi + pitIdxSum (sowPath st rules mover pi) ∧
    (sowedState st rules mover pi).toMove = st.toMove ∧
    (NonNeg st → NonNeg (sowedState st rules mover pi)) := by
  have hlen : pi < (pitsOf st mover).length := by rw [length_pitsOf h0 h1 mover]; exact hpi
  have e0 : (setPit st mover pi 0).pits0.length = rules.pitsPerSide := by
    rw [← pitsOf_zero, length_setPit, pitsOf_zero]; exact h0
  have e1 : (setPit st mover pi 0).pits1.length = rules.pitsPerSide := by
    rw [← pitsOf_one, length_setPit, pitsOf_one]; exact h1
  have hfold := sowSeq_facts rules (sowPath st rules mover pi) (setPit st mover pi 0)
    (sowPath_pitIdxLt st rules mover pi) e0 e1
  obtain ⟨f0, f1, fsum, fstore, fphi, fmove, fnn⟩ := hfold
  refine ⟨f0, f1, ?_, ?_, ?_, ?_, ?_⟩
  · show sumState ((sowPath st rules mover pi).foldl sowOne (setPit st mover pi 0)) = _
    rw [fsum, sumState_setPit st mover pi 0 hlen, getPit_eq]
    ring
  · show storeSum ((sowPath st rules mover pi).foldl sowOne (setPit st mover pi 0)) = _
    rw [fstore, storeSum_setPit]
  · show phi ((sowPath st rules mover pi).foldl sowOne (setPit st mover pi 0)) = _
    rw [fphi, phi_setPit st mover pi 0 hlen, getPit_eq]
    ring
  · show ((sowPath st rules mover pi).foldl sowOne (setPit st mover pi 0)).toMove = _
    rw [fmove, toMove_setPit]
  · intro h
    exact fnn (nonneg_setPit mover pi h le_rfl)

/-! ## The capture stage -/

theorem lastPit_some_iff {path : List Loc} {side : Fin 2} {i : Nat} :
    lastPit path = some (side, i) ↔ path.getLast? = some (Loc.pit side i) := by
  unfold lastPit
  cases h : path.getLast? with
  | none => simp
  | some loc =>
    cases loc with
    | pit s j => simp [Prod.ext_iff]
    | store s => simp

theorem captureStep_characterize (st : GameState) (rules : Rules) (mover : Fin 2) (pi : Nat) :
    captureStep st rules mover pi = (sowedState st rules mover pi, CapInfo.noCapture) ∨
    ∃ i, (sowPath st rules mover pi).getLast? = some (Loc.pit mover i) ∧
      rules.captureRule = CaptureRule.kalah ∧
      getPit (pitsOf st mover) i = 0 ∧
      getPit (pitsOf (sowedState st rules mover pi) mover) i = 1 ∧
      0 < getPit (pitsOf (sowedState st rules mover pi) (1 - mover)) (rules.pitsPerSide - 1 - i) ∧
      captureStep st rules mover pi =
        (addStore
          (setPit
            (setPit (sowedState st rules mover pi) (1 - mover) (rules.pitsPerSide - 1 - i) 0)
            mover i 0)
          mover
          (getPit (pitsOf (sowedState st rules mover pi) (1 - mover)) (rules.pitsPerSide - 1 - i) + 1),
         CapInfo.captureAt i (rules.pitsPerSide - 1 - i)
          (getPit (pitsOf (sowedState st rules mover pi) (1 - mover)) (rules.pitsPerSide - 1 - i) + 1)) := by
  cases hl : lastPit (sowPath st rules mover pi) with
  | none => left; simp only [captureStep, hl]
  | some si =>
    by_cases h1 : rules.captureRule = CaptureRule.kalah ∧ si.1 = mover
    · by_cases h2 : getPit (pitsOf st mover) si.2 = 0 ∧
          getPit (pitsOf (sowedState st rules mover pi) mover) si.2 = 1
      · by_cases h3 : 0 < getPit (pitsOf (sowedState st rules mover pi) (1 - mover))
            (rules.pitsPerSide - 1 - si.2)
        · right
          refine ⟨si.2, ?_, h1.1, h2.1, h2.2, h3, ?_⟩
          · have h := lastPit_some_iff.mp
              (show lastPit (sowPath st rules mover pi) = some (si.1, si.2) by rw [hl])
            rw [h1.2] at h
            exact h
          · simp only [captureStep, hl, if_pos h1, if_pos h2, if_pos h3]
        · left; simp only [captureStep, hl, if_pos h1, if_pos h2, if_neg h3]
      · left; simp only [captureStep, hl, if_pos h1, if_neg h2]
    · left; simp only [captureStep, hl, if_neg h1]

theorem captureStep_facts (st : GameState) (rules : Rules) (mover : Fin 2) (pi : Nat)
    (h0 : st.pits0.length = rules.pitsPerSide) (h1 : st.pits1.length = rules.pitsPerSide)
    (hpi : pi < rules.pitsPerSide) :
    (captureStep st rules mover pi).1.pits0.length = rules.pitsPerSide ∧
    (captureStep st rules mover pi).1.pits1.length = rules.pitsPerSide ∧
    sumState (captureStep st rules mover pi).1 = sumState (sowedState st rules mover pi) ∧
    storeSum (captureStep st rules mover pi).1 =
      storeSum (sowedState st rules mover pi) + capAdd (captureStep st rules mover pi).2 ∧
    0 ≤ capAdd (captureStep st rules mover pi).2 ∧
    (capAdd (captureStep st rules mover pi).2 = 0 →
      (captureStep st rules mover pi).1 = sowedState st rules mover pi) ∧
    (captureStep st rules mover pi).1.toMove = (sowedState st rules mover pi).toMove ∧
    (NonNeg (sowedState st rules mover pi) → NonNeg (captureStep st rules mover pi).1) := by
  obtain ⟨hs0, hs1, _, _, _, _, _⟩ := sowedState_facts st rules mover pi hpi h0 h1
  rcases captureStep_characterize st rules mover pi with h | ⟨i, hlast, hcr, hz, ho, hopp, h⟩
  · rw [h]
    exact ⟨hs0, hs1, rfl, by simp [capAdd], by simp [capAdd], fun _ => rfl, rfl, fun hh => hh⟩
  · have hmem : Loc.pit mover i ∈ sowPath st rules mover pi := List.mem_of_mem_getLast? hlast
    have hiLt : i < rules.pitsPerSide := sowPath_pitIdxLt st rules mover pi _ hmem
    have hoppLt : rules.pitsPerSide - 1 - i < rules.pitsPerSide := by omega
    have hmo : mover ≠ 1 - mover := Ne.symm (opp_ne_self mover)
    have hlenB : rules.pitsPerSide - 1 - i <
        (pitsOf (sowedState st rules mover pi) (1 - mover)).length := by
      rw [length_pitsOf hs0 hs1]; exact hoppLt
    have hBm : pitsOf (setPit (sowedState st rules mover pi) (1 - mover)
        (rules.pitsPerSide - 1 - i) 0) mover = pitsOf (sowedState st rules mover pi) mover :=
      pitsOf_setPit_other _ hmo _ _
    have hlenC : i < (pitsOf (setPit (sowedState st rules mover pi) (1 - mover)
        (rules.pitsPerSide - 1 - i) 0) mover).length := by
      rw [length_setPit, length_pitsOf hs0 hs1]; exact hiLt
    rw [h]
    refine ⟨?_, ?_, ?_, ?_, ?_, ?_, ?_, ?_⟩
    · show (addStore _ mover _).pits0.length = rules.pitsPerSide
      rw [← pitsOf_zero, pitsOf_addStore, length_setPit, length_setPit, pitsOf_zero]
      exact hs0
    · show (addStore _ mover _).pits1.length = rules.pitsPerSide
      rw [← pitsOf_one, pitsOf_addStore, length_setPit, length_setPit, pitsOf_one]
      exact hs1
    · show sumState (addStore _ mover _) = _
      rw [sumState_addStore,
        sumState_setPit _ mover i 0 hlenC,
        sumState_setPit _ (1 - mover) (rules.pitsPerSide - 1 - i) 0 hlenB,
        hBm]
      have e1 : (pitsOf (sowedState st rules mover pi) mover).getD i 0 = 1 := ho
      have e2 := getPit_eq (pitsOf (sowedState st rules mover pi) (1 - mover))
        (rules.pitsPerSide - 1 - i)
      rw [e1]
      omega
    · show storeSum (addStore _ mover _) = _
      rw [storeSum_addStore, storeSum_setPit, storeSum_setPit]
      simp [capAdd]
    · show 0 ≤ capAdd (CapInfo.captureAt _ _ _)
      simp only [capAdd]
      omega
    · intro he
      simp only [capAdd] at he
      omega
    · show (addStore _ mover _).toMove = _
      rw [toMove_addStore, toMove_setPit, toMove_setPit]
    · intro hNN
      exact nonneg_addStore mover
        (nonneg_setPit mover i (nonneg_setPit (1 - mover) _ hNN le_rfl) le_rfl)
        (by omega)

/-! ## The terminal sweep -/

theorem finalize_cases (st : GameState) (rules : Rules) :
    (finalizeIfTerminal st rules = st ∧
      (isTerminal st rules = false ∨ rules.sweepOnGameEnd = false)) ∨
    (isTerminal st rules = true ∧ rules.sweepOnGameEnd = true ∧
      finalizeIfTerminal st rules =
        { pits0 := st.pits0.map fun _ => 0
          pits1 := st.pits1.map fun _ => 0
          store0 := st.store0 + st.pits0.sum
          store1 := st.store1 + st.pits1.sum
          toMove := st.toMove }) := by
  unfold finalizeIfTerminal
  by_cases ht : isTerminal st rules = false
  · left
    exact ⟨by rw [if_pos ht], Or.inl ht⟩
  · have ht2 : isTerminal st rules = true := by
      cases h : isTerminal st rules
      · exact absurd h ht
      · rfl
    by_cases hs : rules.sweepOnGameEnd = false
    · left
      refine ⟨?_, Or.inr hs⟩
      rw [if_neg (by simp [ht2]), if_pos hs]
    · have hs2 : rules.sweepOnGameEnd = true := by
        cases h : rules.sweepOnGameEnd
        · exact absurd h hs
        · rfl
      right
      refine ⟨ht2, hs2, ?_⟩
      rw [if_neg (by simp [ht2]), if_neg (by simp [hs2])]

theorem finalize_facts (st : GameState) (rules : Rules)
    (h0 : st.pits0.length = rules.pitsPerSide) (h1 : st.pits1.length = rules.pitsPerSide) :
    (finalizeIfTerminal st rules).pits0.length = rules.pitsPerSide ∧
    (finalizeIfTerminal st rules).pits1.length = rules.pitsPerSide ∧
    sumState (finalizeIfTerminal st rules) = sumState st ∧
    (finalizeIfTerminal st rules).toMove = st.toMove ∧
    (NonNeg st → NonNeg (finalizeIfTerminal st rules)) ∧
    (NonNeg st → storeSum st ≤ storeSum (finalizeIfTerminal st rules)) ∧
    (NonNeg st → storeSum (finalizeIfTerminal st rules) = storeSum st →
      phi (finalizeIfTerminal st rules) = phi st) := by
  rcases finalize_cases st rules with ⟨he, _⟩ | ⟨_, _, he⟩
  · rw [he]
    exact ⟨h0, h1, rfl, rfl, fun h => h, fun _ => le_rfl, fun _ _ => rfl⟩
  · rw [he]
    refine ⟨by simpa using h0, by simpa using h1, ?_, rfl, ?_, ?_, ?_⟩
    · show (st.pits0.map fun _ => (0 : Int)).sum + (st.pits1.map fun _ => (0 : Int)).sum +
        (st.store0 + st.pits0.sum) + (st.store1 + st.pits1.sum) = sumState st
      rw [sum_map_zero, sum_map_zero]
      simp [sumState]
      ring
    · intro ⟨hp0, hp1, hs0, hs1⟩
      refine ⟨?_, ?_, ?_, ?_⟩
      · intro x hx
        rcases List.mem_map.mp hx with ⟨y, _, rfl⟩
        exact le_rfl
      · intro x hx
        rcases List.mem_map.mp hx with ⟨y, _, rfl⟩
        exact le_rfl
      · have := List.sum_nonneg hp0
        show 0 ≤ st.store0 + st.pits0.sum
        omega
      · have := List.sum_nonneg hp1
        show 0 ≤ st.store1 + st.pits1.sum
        omega
    · intro ⟨hp0, hp1, _, _⟩
      have g0 := List.sum_nonneg hp0
      have g1 := List.sum_nonneg hp1
      show storeSum st ≤ st.store0 + st.pits0.sum + (st.store1 + st.pits1.sum)
      simp only [storeSum]
      omega
    · intro ⟨hp0, hp1, _, _⟩ heq

      have g0 := List.sum_nonneg hp0
      have g1 := List.sum_nonneg hp1
      have heq2 : st.store0 + st.pits0.sum + (st.store1 + st.pits1.sum) = st.store0 + st.store1 := by
        simpa [storeSum] using heq
      have hz0 : st.pits0.sum = 0 := by omega
      have hz1 : st.pits1.sum = 0 := by omega
      have a0 := all_zero_of_sum_zero hp0 hz0
      have a1 := all_zero_of_sum_zero hp1 hz1
      show wsum (st.pits0.map fun _ => 0) + wsum (st.pits1.map fun _ => 0) = phi st
      rw [wsum_map_zero, wsum_map_zero, phi,
        wsum_eq_zero_of_all_zero a0, wsum_eq_zero_of_all_zero a1]

/-! ## Destructuring a successful `playMove` -/

theorem playMove_ok_elim {st : GameState} {rules : Rules} {p : Int} {res : MoveResult}
    (h : playMove st rules p = .ok res) :
    0 ≤ p ∧ p < (rules.pitsPerSide : Int) ∧
    (rules.allowMoveFromEmpty = true ∨ getPit (pitsOf st st.toMove) p.toNat ≠ 0) ∧
    res.mover = st.toMove ∧
    res.pitIndex = p.toNat ∧
    res.path = sowPath st rules st.toMove p.toNat ∧
    res.extraTurn = (rules.extraTurnOnStore &&
      lastIsMoverStore (sowPath st rules st.toMove p.toNat) st.toMove) ∧
    res.capture = (captureStep st rules st.toMove p.toNat).2 ∧
    res.state = finalizeIfTerminal
      (setToMove (captureStep st rules st.toMove p.toNat).1
        (if (rules.extraTurnOnStore &&
            lastIsMoverStore (sowPath st rules st.toMove p.toNat) st.toMove) = true
          then st.toMove else 1 - st.toMove)) rules := by
  simp only [playMove] at h
  split at h
  · exact absurd h (by simp)
  · next hrange =>
    split at h
    · exact absurd h (by simp)
    · next hempty =>
      injection h with hres
      push_neg at hrange
      refine ⟨hrange.1, hrange.2, ?_, ?_, ?_, ?_, ?_, ?_, ?_⟩
      · by_cases ha : rules.allowMoveFromEmpty = true
        · exact Or.inl ha
        · right
          intro hz
          exact hempty ⟨by simpa using ha, hz⟩
      all_goals rw [← hres]

theorem setToMove_facts (X : GameState) (t : Fin 2) :
    (setToMove X t).pits0 = X.pits0 ∧
    (setToMove X t).pits1 = X.pits1 ∧
    sumState (setToMove X t) = sumState X ∧
    storeSum (setToMove X t) = storeSum X ∧
    phi (setToMove X t) = phi X ∧
    (NonNeg X → NonNeg (setToMove X t)) :=
  ⟨rfl, rfl, rfl, rfl, rfl, fun h => h⟩

theorem hand_nonneg {st : GameState} (hNN : NonNeg st) (side : Fin 2) (i : Nat) :
    0 ≤ getPit (pitsOf st side) i := by
  rcases fin2_eq side with hm | hm
  · rw [hm, pitsOf_zero, getPit_eq]
    exact getD_nonneg hNN.1 i
  · rw [hm, pitsOf_one, getPit_eq]
    exact getD_nonneg hNN.2.1 i

theorem playMove_ok_inv {st : GameState} {rules : Rules} {p : Int} {res : MoveResult}
    (h : playMove st rules p = .ok res)
    (h0 : st.pits0.length = rules.pitsPerSide) (h1 : st.pits1.length = rules.pitsPerSide)
    (hNN : NonNeg st) :
    res.state.pits0.length = rules.pitsPerSide ∧
    res.state.pits1.length = rules.pitsPerSide ∧
    NonNeg res.state ∧
    sumState res.state = sumState st := by
  obtain ⟨hp0, hpn, _, _, _, _, _, _, hstate⟩ := playMove_ok_elim h
  have hpiLt : p.toNat < rules.pitsPerSide := by omega
  obtain ⟨s0, s1, ssum, _, _, _, snn⟩ :=
    sowedState_facts st rules st.toMove p.toNat hpiLt h0 h1
  have hhand := hand_nonneg hNN st.toMove p.toNat
  have hplen := @sowPath_length st rules st.toMove p.toNat hhand
  obtain ⟨c0, c1, csum, _, _, _, _, cnn⟩ :=
    captureStep_facts st rules st.toMove p.toNat h0 h1 hpiLt
  obtain ⟨m0, m1, msum, _, _, mnn⟩ := setToMove_facts (captureStep st rules st.toMove p.toNat).1
    (if (rules.extraTurnOnStore &&
        lastIsMoverStore (sowPath st rules st.toMove p.toNat) st.toMove) = true
      then st.toMove else 1 - st.toMove)
  obtain ⟨f0, f1, fsum, _, fnn, _, _⟩ := finalize_facts
    (setToMove (captureStep st rules st.toMove p.toNat).1
      (if (rules.extraTurnOnStore &&
          lastIsMoverStore (sowPath st rules st.toMove p.toNat) st.toMove) = true
        then st.toMove else 1 - st.toMove)) rules
    (by rw [m0]; exact c0) (by rw [m1]; exact c1)
  rw [hstate]
  refine ⟨f0, f1, ?_, ?_⟩
  · exact fnn (mnn (cnn (snn hNN)))
  · rw [fsum, msum, csum, ssum, hplen]
    ring

/-! ## Reachability invariants -/

theorem reachesN_inv {rules : Rules} {k : Nat} {s t : GameState}
    (hr : ReachesN rules k s t)
    (h0 : s.pits0.length = rules.pitsPerSide) (h1 : s.pits1.length = rules.pitsPerSide)
    (hNN : NonNeg s) :
    t.pits0.length = rules.pitsPerSide ∧ t.pits1.length = rules.pitsPerSide ∧
    NonNeg t ∧ sumState t = sumState s := by
  induction hr with
  | refl s => exact ⟨h0, h1, hNN, rfl⟩
  | step hr hmv ih =>
    obtain ⟨i0, i1, iNN, isum⟩ := ih h0 h1 hNN
    obtain ⟨j0, j1, jNN, jsum⟩ := playMove_ok_inv hmv i0 i1 iNN
    exact ⟨j0, j1, jNN, by omega⟩

theorem initStandard_facts (rules : Rules) (startSide : Int) :
    (initStandard rules startSide).pits0.length = rules.pitsPerSide ∧
    (initStandard rules startSide).pits1.length = rules.pitsPerSide ∧
    NonNeg (initStandard rules startSide) ∧
    sumState (initStandard rules startSide) =
      2 * (rules.pitsPerSide : Int) * (rules.seedsPerPit : Int) := by
  refine ⟨by simp [initStandard], by simp [initStandard], ?_, ?_⟩
  · refine ⟨?_, ?_, le_rfl, le_rfl⟩ <;>
    · intro x hx
      rw [List.eq_of_mem_replicate hx]
      exact Int.natCast_nonneg _
  · show (List.replicate rules.pitsPerSide ((rules.seedsPerPit : Int))).sum +
      (List.replicate rules.pitsPerSide ((rules.seedsPerPit : Int))).sum + 0 + 0 = _
    rw [List.sum_replicate, nsmul_eq_mul]
    ring

/-! ## Claim theorems -/

/-- C1: seed conservation — for every rules configuration and start side,
every state reached from `initStandard` by a chain of successful `playMove`
applications (each resulting state is post-sweep) has total seed count
`2 * pitsPerSide * seedsPerPit` across all pits and both stores. -/
theorem C1_seed_conservation (rules : Rules) (startSide : Int) (s : GameState)
    (h : Reaches rules (initStandard rules startSide) s) :
    sumState s = 2 * (rules.pitsPerSide : Int) * (rules.seedsPerPit : Int) := by
  obtain ⟨k, hk⟩ := h
  obtain ⟨l0, l1, lNN, lsum⟩ := initStandard_facts rules startSide
  obtain ⟨_, _, _, hsum⟩ := reachesN_inv hk l0 l1 lNN
  rw [hsum, lsum]

/-- Witness for C1 at a concrete input: the one-pit, one-seed game after the
single legal opening move (which sows into the store, triggers the terminal
sweep, and leaves one seed in each store). -/
theorem C1_seed_conservation_witness :
    sumState ⟨[0], [0], 1, 1, 0⟩ =
      2 * (rulesA.pitsPerSide : Int) * (rulesA.seedsPerPit : Int) :=
  C1_seed_conservation rulesA 0 _
    ⟨1, ReachesN.step (ReachesN.refl _)
      (show playMove (initStandard rulesA 0) rulesA 0 =
        .ok ⟨⟨[0], [0], 1, 1, 0⟩, [Loc.store 0], 0, 0, true, CapInfo.noCapture, true⟩
       by rfl)⟩

/-- C8: sweep law — when the state is terminal and `sweepOnGameEnd` is set,
`finalizeIfTerminal` zeroes every pit and adds each side's own pre-sweep pit
sum to that side's store (and only that side's), leaving `toMove` alone; in
every other case it returns the state unchanged. -/
theorem C8_sweep_law (st : GameState) (rules : Rules) :
    (isTerminal st rules = true → rules.sweepOnGameEnd = true →
      (∀ x ∈ (finalizeIfTerminal st rules).pits0, x = 0) ∧
      (∀ x ∈ (finalizeIfTerminal st rules).pits1, x = 0) ∧
      (finalizeIfTerminal st rules).store0 = st.store0 + st.pits0.sum ∧
      (finalizeIfTerminal st rules).store1 = st.store1 + st.pits1.sum ∧
      (finalizeIfTerminal st rules).toMove = st.toMove) ∧
    (isTerminal st rules = false ∨ rules.sweepOnGameEnd = false →
      finalizeIfTerminal st rules = st) := by
  rcases finalize_cases st rules with ⟨he, hc⟩ | ⟨ht, hs, he⟩
  · refine ⟨?_, fun _ => he⟩
    intro ht hs
    rcases hc with hc | hc
    · rw [ht] at hc; cases hc
    · rw [hs] at hc; cases hc
  · refine ⟨?_, ?_⟩
    · intro _ _
      rw [he]
      refine ⟨?_, ?_, rfl, rfl, rfl⟩
      · intro x hx
        rcases List.mem_map.mp hx with ⟨y, _, rfl⟩
        rfl
      · intro x hx
        rcases List.mem_map.mp hx with ⟨y, _, rfl⟩
        rfl
    · intro hcon
      rcases hcon with hcon | hcon
      · rw [ht] at hcon; cases hcon
      · rw [hs] at hcon; cases hcon

/-- Witness for C8 at a concrete input: a terminal state with seeds on side
1 only; the sweep credits side 1's own store. -/
theorem C8_sweep_law_witness :
    isTerminal stSweep rulesC = true ∧
    (finalizeIfTerminal stSweep rulesC).store1 = stSweep.store1 + stSweep.pits1.sum :=
  ⟨by decide, ((C8_sweep_law stSweep rulesC).1 (by decide) rfl).2.2.2.1⟩

/-! ## Error handling of `playMove` (C9) -/

theorem playMove_eq_error_oor {st : GameState} {rules : Rules} {p : Int}
    (hrange : p < 0 ∨ (rules.pitsPerSide : Int) ≤ p) :
    playMove st rules p = .error "pitIndex out of range" := by
  simp only [playMove]
  rw [if_pos hrange]

theorem playMove_eq_error_empty {st : GameState} {rules : Rules} {p : Int}
    (hrange : ¬(p < 0 ∨ (rules.pitsPerSide : Int) ≤ p))
    (hemp : rules.allowMoveFromEmpty = false ∧ getPit (pitsOf st st.toMove) p.toNat = 0) :
    playMove st rules p = .error "empty pit" := by
  simp only [playMove]
  rw [if_neg hrange, if_pos hemp]

theorem playMove_eq_ok {st : GameState} {rules : Rules} {p : Int}
    (hrange : ¬(p < 0 ∨ (rules.pitsPerSide : Int) ≤ p))
    (hemp : ¬(rules.allowMoveFromEmpty = false ∧ getPit (pitsOf st st.toMove) p.toNat = 0)) :
    ∃ r, playMove st rules p = .ok r :=
  ⟨_, by simp only [playMove]; rw [if_neg hrange, if_neg hemp]⟩

/-- C9: move-application error handling — `playMove` is a total function
returning a tagged value: it yields the "out of range" failure exactly when
the pit index falls outside `[0, n)` (this test runs first), the "empty pit"
failure exactly when the index is in range but the chosen pit holds zero
seeds while `allowMoveFromEmpty` is off, and a success value in every other
case; failures carry no successor state. -/
theorem C9_move_error_handling (st : GameState) (rules : Rules) (p : Int) :
    (playMove st rules p = .error "pitIndex out of range" ↔
      p < 0 ∨ (rules.pitsPerSide : Int) ≤ p) ∧
    (playMove st rules p = .error "empty pit" ↔
      ¬(p < 0 ∨ (rules.pitsPerSide : Int) ≤ p) ∧
      rules.allowMoveFromEmpty = false ∧ getPit (pitsOf st st.toMove) p.toNat = 0) ∧
    ((∃ r, playMove st rules p = .ok r) ↔
      ¬(p < 0 ∨ (rules.pitsPerSide : Int) ≤ p) ∧
      ¬(rules.allowMoveFromEmpty = false ∧ getPit (pitsOf st st.toMove) p.toNat = 0)) := by
  by_cases hrange : p < 0 ∨ (rules.pitsPerSide : Int) ≤ p
  · have he := @playMove_eq_error_oor st rules p hrange
    refine ⟨⟨fun _ => hrange, fun _ => he⟩, ?_, ?_⟩
    · rw [he]
      constructor
      · intro hh
        have : ("pitIndex out of range" : String) = "empty pit" := by injection hh
        exact absurd this (by decide)
      · intro hh
        exact absurd hrange hh.1
    · rw [he]
      constructor
      · intro ⟨r, hr⟩
        cases hr
      · intro hh
        exact absurd hrange hh.1
  · by_cases hemp : rules.allowMoveFromEmpty = false ∧ getPit (pitsOf st st.toMove) p.toNat = 0
    · have he := playMove_eq_error_empty hrange hemp
      refine ⟨?_, ⟨fun _ => ⟨hrange, hemp⟩, fun _ => he⟩, ?_⟩
      · rw [he]
        constructor
        · intro hh
          have : ("empty pit" : String) = "pitIndex out of range" := by injection hh
          exact absurd this (by decide)
        · intro hh
          exact absurd hh hrange
      · rw [he]
        constructor
        · intro ⟨r, hr⟩
          cases hr
        · intro hh
          exact absurd hemp hh.2
    · obtain ⟨r, hr⟩ := playMove_eq_ok hrange hemp
      refine ⟨?_, ?_, ⟨fun _ => ⟨hrange, hemp⟩, fun _ => ⟨r, hr⟩⟩⟩
      · rw [hr]
        constructor
        · intro hh; cases hh
        · intro hh; exact absurd hh hrange
      · rw [hr]
        constructor
        · intro hh; cases hh
        · intro hh; exact absurd hh.2.1 (fun hf => hemp ⟨hf, hh.2.2⟩)

/-! ## Extra-turn law (C4) -/

theorem lastIsMoverStore_iff (path : List Loc) (m : Fin 2) :
    lastIsMoverStore path m = true ↔ path.getLast? = some (Loc.store m) := by
  unfold lastIsMoverStore
  cases h : path.getLast? with
  | none => simp
  | some loc =>
    cases loc with
    | pit s i => simp
    | store s =>
      constructor
      · intro hb
        have : s = m := by simpa using hb
        rw [this]
      · intro hb
        have : Loc.store s = Loc.store m := by injection hb
        have hs : s = m := by injection this
        simp [hs]

theorem finalize_toMove (st : GameState) (rules : Rules) :
    (finalizeIfTerminal st rules).toMove = st.toMove := by
  rcases finalize_cases st rules with ⟨he, _⟩ | ⟨_, _, he⟩ <;> rw [he]

/-- C4: extra-turn law — after a successful move the `extraTurn` flag is set
exactly when `extraTurnOnStore` is enabled and the last sow-path entry is the
mover's own store; the resulting side to move equals the mover exactly in
that case and flips to the opponent otherwise, including for a zero-seed
no-op move whose sow path is empty. -/
theorem C4_extra_turn_law {st : GameState} {rules : Rules} {p : Int} {res : MoveResult}
    (h : playMove st rules p = .ok res) :
    (res.extraTurn = true ↔
      rules.extraTurnOnStore = true ∧ res.path.getLast? = some (Loc.store st.toMove)) ∧
    res.state.toMove = (if res.extraTurn = true then st.toMove else 1 - st.toMove) ∧
    (res.state.toMove = st.toMove ↔ res.extraTurn = true) ∧
    (res.path = [] → res.state.toMove = 1 - st.toMove) := by
  obtain ⟨_, _, _, _, _, hpath, hext, _, hstate⟩ := playMove_ok_elim h
  have hiff : res.extraTurn = true ↔
      rules.extraTurnOnStore = true ∧ res.path.getLast? = some (Loc.store st.toMove) := by
    rw [hext, hpath]
    constructor
    · intro hb
      have hb2 : rules.extraTurnOnStore = true ∧
          lastIsMoverStore (sowPath st rules st.toMove p.toNat) st.toMove = true := by
        simpa using hb
      exact ⟨hb2.1, (lastIsMoverStore_iff _ _).mp hb2.2⟩
    · intro ⟨h1, h2⟩
      have h2b := (lastIsMoverStore_iff
        (sowPath st rules st.toMove p.toNat) st.toMove).mpr (hpath ▸ h2)
      simp [h1, h2b]
  have hmove : res.state.toMove = (if res.extraTurn = true then st.toMove else 1 - st.toMove) := by
    rw [hstate, finalize_toMove]
    show (if (rules.extraTurnOnStore &&
        lastIsMoverStore (sowPath st rules st.toMove p.toNat) st.toMove) = true
      then st.toMove else 1 - st.toMove) = _
    rw [← hext]
  refine ⟨hiff, hmove, ?_, ?_⟩
  · rw [hmove]
    cases hb : res.extraTurn
    · rw [if_neg (by simp)]
      constructor
      · intro hcon
        exact absurd hcon (opp_ne_self st.toMove)
      · intro hcon
        cases hcon
    · rw [if_pos rfl]
      simp
  · intro hempty
    rw [hmove]
    have : res.extraTurn = false := by
      cases hb : res.extraTurn
      · rfl
      · have := hiff.mp hb
        rw [hempty] at this
        cases this.2
    rw [this]
    simp

/-- Witness for C4 at a concrete input: in the one-pit game the opening move
lands in the mover's store, so the mover keeps the turn. -/
theorem C4_extra_turn_law_witness :
    (⟨⟨[0], [0], 1, 1, 0⟩, [Loc.store 0], 0, 0, true, CapInfo.noCapture, true⟩ :
      MoveResult).state.toMove = 0 := by
  have h : playMove (initStandard rulesA 0) rulesA 0 =
      .ok ⟨⟨[0], [0], 1, 1, 0⟩, [Loc.store 0], 0, 0, true, CapInfo.noCapture, true⟩ := by rfl
  rw [(C4_extra_turn_law h).2.1]
  rfl

/-! ## Sowing path shape (C3) -/

theorem sowPath_getD {st : GameState} {rules : Rules} {mover : Fin 2} {pi : Nat}
    (k : Nat) (hk : k < (sowPath st rules mover pi).length) :
    (sowPath st rules mover pi).getD k (Loc.store mover) =
      ringLoc rules.pitsPerSide mover ((pi + 1 + k) % (2 * rules.pitsPerSide + 1)) := by
  unfold sowPath at hk ⊢
  by_cases hhand : getPit (pitsOf st mover) pi ≤ 0
  · rw [if_pos hhand] at hk
    simp at hk
  · rw [if_neg hhand] at hk ⊢
    rw [sowPathGo_length] at hk
    rw [sowPathGo_getD rules.pitsPerSide mover _ _ k (Nat.mod_lt _ (by omega)) hk]
    congr 1
    rw [Nat.mod_add_mod]

/-- C3: sowing path shape — a successful move on a state of the data model
(non-negative counts) produces a path with exactly one entry per seed of the
source pit's pre-move count, whose `k`-th entry is the ring position
`(pitIndex + 1 + k) mod (2n+1)` of the mover-relative circular sequence
(mover's pits, mover's store, opponent's pits), and which never contains a
store placement on the non-mover side. -/
theorem C3_sowing_path {st : GameState} {rules : Rules} {p : Int} {res : MoveResult}
    (h : playMove st rules p = .ok res) (hNN : NonNeg st) :
    ((res.path.length : Int) = getPit (pitsOf st st.toMove) res.pitIndex) ∧
    (∀ k, k < res.path.length →
      res.path.getD k (Loc.store st.toMove) =
        ringLoc rules.pitsPerSide st.toMove
          ((res.pitIndex + 1 + k) % (2 * rules.pitsPerSide + 1))) ∧
    (∀ loc ∈ res.path, loc ≠ Loc.store (1 - st.toMove)) := by
  obtain ⟨_, _, _, _, hpi, hpath, _, _, _⟩ := playMove_ok_elim h
  rw [hpath, hpi]
  exact ⟨sowPath_length (hand_nonneg hNN st.toMove p.toNat),
    fun k hk => sowPath_getD k hk,
    sowPath_ne_opp_store st rules st.toMove p.toNat⟩

/-- Witness for C3 at a concrete input: the opening move of the two-pit,
one-seed game, whose single seed lands in the mover's second pit. -/
theorem C3_sowing_path_witness :
    (((⟨⟨[0, 2], [1, 1], 0, 0, 1⟩, [Loc.pit 0 1], 0, 0, false, CapInfo.noCapture, false⟩ :
        MoveResult)).path.length : Int) =
      getPit (pitsOf (initStandard rulesB 0) 0)
        (⟨⟨[0, 2], [1, 1], 0, 0, 1⟩, [Loc.pit 0 1], 0, 0, false, CapInfo.noCapture,
          false⟩ : MoveResult).pitIndex := by
  have h : playMove (initStandard rulesB 0) rulesB 0 =
      .ok ⟨⟨[0, 2], [1, 1], 0, 0, 1⟩, [Loc.pit 0 1], 0, 0, false, CapInfo.noCapture, false⟩ := by
    rfl
  have hNN : NonNeg (initStandard rulesB 0) := by
    refine ⟨?_, ?_, le_rfl, le_rfl⟩ <;> decide
  exact (C3_sowing_path h hNN).1

/-- C10: `initFromArrays` validates only the two array lengths — any integer
contents are accepted unchecked and copied through, while the two stores are
coerced with `| 0` (signed 32-bit truncation); consequently a successfully
constructed state can violate the documented non-negativity and
seed-conservation invariants, as the concrete instance in the last conjunct
shows (a negative pit, a wrapped-around store and a broken total). -/
theorem C10_initFromArrays_unchecked (rules : Rules) (pits0 pits1 : List Int)
    (s0 s1 tm : Int) :
    ((∃ st, initFromArrays rules pits0 pits1 s0 s1 tm = .ok st) ↔
      pits0.length = rules.pitsPerSide ∧ pits1.length = rules.pitsPerSide) ∧
    (∀ st, initFromArrays rules pits0 pits1 s0 s1 tm = .ok st →
      st.pits0 = pits0 ∧ st.pits1 = pits1 ∧
      st.store0 = toInt32 s0 ∧ st.store1 = toInt32 s1) ∧
    (∃ st, initFromArrays rulesA [-5] [0] (2 ^ 32 + 5) (-1) 0 = .ok st ∧
      ¬(∀ x ∈ st.pits0, 0 ≤ x) ∧ st.store0 = 5 ∧ st.store1 = -1 ∧
      sumState st ≠ 2 * (rulesA.pitsPerSide : Int) * (rulesA.seedsPerPit : Int)) := by
  have hconc : ∃ st, initFromArrays rulesA [-5] [0] (2 ^ 32 + 5) (-1) 0 = .ok st ∧
      ¬(∀ x ∈ st.pits0, 0 ≤ x) ∧ st.store0 = 5 ∧ st.store1 = -1 ∧
      sumState st ≠ 2 * (rulesA.pitsPerSide : Int) * (rulesA.seedsPerPit : Int) :=
    ⟨⟨[-5], [0], 5, -1, 0⟩, by rfl, by decide, rfl, rfl, by decide⟩
  by_cases h0 : pits0.length = rules.pitsPerSide
  · by_cases h1 : pits1.length = rules.pitsPerSide
    · have hok : initFromArrays rules pits0 pits1 s0 s1 tm =
          .ok ⟨pits0, pits1, toInt32 s0, toInt32 s1, if tm = 1 then 1 else 0⟩ := by
        unfold initFromArrays
        rw [if_neg (by simp [h0]), if_neg (by simp [h1])]
      refine ⟨⟨fun _ => ⟨h0, h1⟩, fun _ => ⟨_, hok⟩⟩, ?_, hconc⟩
      intro st hst
      rw [hok] at hst
      injection hst with he
      rw [← he]
      exact ⟨rfl, rfl, rfl, rfl⟩
    · have herr : initFromArrays rules pits0 pits1 s0 s1 tm = .error "pits1 wrong length" := by
        unfold initFromArrays
        rw [if_neg (by simp [h0]), if_pos h1]
      refine ⟨⟨?_, fun hc => absurd hc.2 h1⟩, ?_, hconc⟩
      · intro ⟨st, hst⟩
        rw [herr] at hst
        cases hst
      · intro st hst
        rw [herr] at hst
        cases hst
  · have herr : initFromArrays rules pits0 pits1 s0 s1 tm = .error "pits0 wrong length" := by
      unfold initFromArrays
      rw [if_pos h0]
    refine ⟨⟨?_, fun hc => absurd hc.1 h0⟩, ?_, hconc⟩
    · intro ⟨st, hst⟩
      rw [herr] at hst
      cases hst
    · intro st hst
      rw [herr] at hst
      cases hst

/-- Witness for C10 at a concrete input: the store of the construction with
a wrapped 32-bit store value reads back as its `| 0` truncation. -/
theorem C10_initFromArrays_unchecked_witness :
    (⟨[-5], [0], 5, -1, 0⟩ : GameState).store0 = toInt32 (2 ^ 32 + 5) := by
  have h := (C10_initFromArrays_unchecked rulesA [-5] [0] (2 ^ 32 + 5) (-1) 0).2.1
    ⟨[-5], [0], 5, -1, 0⟩ (by rfl)
  exact h.2.2.1

/-- C5 (code bug): the leaf test of `alphabeta` is `depth <= 0 ||
st.terminal`, but game states carry no `terminal` field (that flag lives on
move results), so the second disjunct reads `undefined` and never fires: a
terminal position whose side to move still holds seeds is expanded rather
than leaf-evaluated.  At the terminal one-pit state `[1] / [0]` with depth 1
the search expands the remaining move and returns 16, not the leaf
evaluation 0. -/
theorem C5_terminal_state_expanded :
    isTerminal stTermMovable rulesA = true ∧
    getValidMoves stTermMovable rulesA = [0] ∧
    evalCost stTermMovable rulesA 0 0 0 0 = 0 ∧
    alphabeta rulesA 0 0 0 1 stTermMovable XVal.negInf XVal.posInf 0 = XVal.num 16 :=
  ⟨by decide, by decide, by decide, by rfl⟩

/-! ## The capture law (C2) -/

theorem captureStep_fires_iff (st : GameState) (rules : Rules) (mover : Fin 2) (pi : Nat) :
    (captureStep st rules mover pi).2 ≠ CapInfo.noCapture ↔
      rules.captureRule = CaptureRule.kalah ∧
      ∃ i, (sowPath st rules mover pi).getLast? = some (Loc.pit mover i) ∧
        getPit (pitsOf st mover) i = 0 ∧
        getPit (pitsOf (sowedState st rules mover pi) mover) i = 1 ∧
        0 < getPit (pitsOf (sowedState st rules mover pi) (1 - mover))
          (rules.pitsPerSide - 1 - i) := by
  constructor
  · intro hne
    rcases captureStep_characterize st rules mover pi with he | ⟨i, hlast, hkal, hz, ho, hopp, he⟩
    · rw [he] at hne
      exact absurd rfl hne
    · exact ⟨hkal, i, hlast, hz, ho, hopp⟩
  · intro ⟨hkal, i, hlast, hz, ho, hopp⟩
    have hlp : lastPit (sowPath st rules mover pi) = some (mover, i) :=
      lastPit_some_iff.mpr hlast
    have : captureStep st rules mover pi =
        (addStore
          (setPit (setPit (sowedState st rules mover pi) (1 - mover)
            (rules.pitsPerSide - 1 - i) 0) mover i 0)
          mover
          (getPit (pitsOf (sowedState st rules mover pi) (1 - mover))
            (rules.pitsPerSide - 1 - i) + 1),
         CapInfo.captureAt i (rules.pitsPerSide - 1 - i)
          (getPit (pitsOf (sowedState st rules mover pi) (1 - mover))
            (rules.pitsPerSide - 1 - i) + 1)) := by
      simp only [captureStep, hlp]
      rw [if_pos (And.intro hkal trivial), if_pos (And.intro hz ho), if_pos hopp]
    rw [this]
    intro hcon
    cases hcon

/-- C2 counterexample: wrap-around sowing defeats the claim's capture
condition.  Playing pit 0 of `stWrap` (six seeds on a five-position ring)
drops the last seed in the mover's own pit 1, which held exactly 0 before
the move, while the mirror pit held 5 (and holds 6 after sowing) — the claim
says a capture must fire, but the engine reports no capture because the
landing pit ends holding two seeds, not one. -/
theorem C2_capture_law_counterexample :
    rulesC.captureRule = CaptureRule.kalah ∧
    playMove stWrap rulesC 0 =
      .ok ⟨⟨[1, 2], [6, 10], 1, 0, 1⟩,
        [Loc.pit 0 1, Loc.store 0, Loc.pit 1 0, Loc.pit 1 1, Loc.pit 0 0, Loc.pit 0 1],
        0, 0, false, CapInfo.noCapture, false⟩ ∧
    (sowPath stWrap rulesC 0 0).getLast? = some (Loc.pit 0 1) ∧
    getPit (pitsOf stWrap 0) 1 = 0 ∧
    0 < getPit (pitsOf stWrap 1) (rulesC.pitsPerSide - 1 - 1) ∧
    0 < getPit (pitsOf (sowedState stWrap rulesC 0 0) 1) (rulesC.pitsPerSide - 1 - 1) :=
  ⟨rfl, by rfl, by rfl, by decide, by decide, by decide⟩

/-- C2 (amended): capture law under `captureRule = KALAH` — a capture fires
iff the last sown seed landed in one of the mover's own pits `i`, pit `i`
held exactly 0 seeds immediately before the move began, pit `i` holds
exactly 1 seed after sowing, and the mirror opponent pit `n-1-i` holds more
than 0 seeds after sowing.  When it fires, the reported captured count is
the mirror pit's post-sowing count plus one, and in the post-capture
(pre-sweep) state both pits read 0 while the mover's store holds its
post-sowing value plus exactly the reported count; when it does not fire,
the capture stage leaves the sown state untouched. -/
theorem C2_capture_law_amended {st : GameState} {rules : Rules} {p : Int} {res : MoveResult}
    (h : playMove st rules p = .ok res) (hkal : rules.captureRule = CaptureRule.kalah) :
    (res.capture ≠ CapInfo.noCapture ↔
      ∃ i, res.path.getLast? = some (Loc.pit st.toMove i) ∧
        getPit (pitsOf st st.toMove) i = 0 ∧
        getPit (pitsOf (sowedState st rules st.toMove res.pitIndex) st.toMove) i = 1 ∧
        0 < getPit (pitsOf (sowedState st rules st.toMove res.pitIndex) (1 - st.toMove))
          (rules.pitsPerSide - 1 - i)) ∧
    (∀ i oppI c, res.capture = CapInfo.captureAt i oppI c →
      oppI = rules.pitsPerSide - 1 - i ∧
      c = getPit (pitsOf (sowedState st rules st.toMove res.pitIndex) (1 - st.toMove)) oppI + 1 ∧
      getPit (pitsOf (captureStep st rules st.toMove res.pitIndex).1 st.toMove) i = 0 ∧
      getPit (pitsOf (captureStep st rules st.toMove res.pitIndex).1 (1 - st.toMove)) oppI = 0 ∧
      storeOf (captureStep st rules st.toMove res.pitIndex).1 st.toMove =
        storeOf (sowedState st rules st.toMove res.pitIndex) st.toMove + c) ∧
    (res.capture = CapInfo.noCapture →
      (captureStep st rules st.toMove res.pitIndex).1 =
        sowedState st rules st.toMove res.pitIndex) := by
  obtain ⟨_, _, _, _, hpi, hpath, _, hcap, _⟩ := playMove_ok_elim h
  have hmo : st.toMove ≠ 1 - st.toMove := Ne.symm (opp_ne_self st.toMove)
  refine ⟨?_, ?_, ?_⟩
  · rw [hcap, hpath, hpi]
    rw [captureStep_fires_iff st rules st.toMove p.toNat]
    constructor
    · intro ⟨_, hex⟩
      exact hex
    · intro hex
      exact ⟨hkal, hex⟩
  · intro i oppI c hcapeq
    rw [hcap] at hcapeq
    rcases captureStep_characterize st rules st.toMove res.pitIndex with
      he | ⟨i2, hlast, _, hz, ho, hopp, he⟩
    · rw [hpi] at he
      rw [he] at hcapeq
      exact CapInfo.noConfusion hcapeq
    · rw [hpi] at he
      rw [he] at hcapeq
      obtain ⟨e1, e2, e3⟩ := CapInfo.captureAt.inj hcapeq
      subst e1
      subst e2
      subst e3
      rw [hpi, he]
      refine ⟨rfl, rfl, ?_, ?_, ?_⟩
      · rw [pitsOf_addStore, pitsOf_setPit_self, getPit_eq, getD_set_zero]
      · rw [pitsOf_addStore, pitsOf_setPit_other _ (Ne.symm hmo), pitsOf_setPit_self,
          getPit_eq, getD_set_zero]
      · rw [storeOf_addStore_self, storeOf_setPit, storeOf_setPit]
  · intro hnone
    rw [hcap] at hnone
    rcases captureStep_characterize st rules st.toMove res.pitIndex with
      he | ⟨i2, hlast, _, hz, ho, hopp, he⟩
    · rw [hpi] at he ⊢
      rw [he]
    · rw [hpi] at he
      rw [he] at hnone
      exact CapInfo.noConfusion hnone

/-- Witness for C2 at a concrete input: the plain capture of `stCap` (last
seed into own empty pit 1, mirror pit holding 3) reports 4 captured seeds
and credits the mover's store with exactly that amount. -/
theorem C2_capture_law_amended_witness :
    storeOf (captureStep stCap rulesC 0 0).1 0 = storeOf (sowedState stCap rulesC 0 0) 0 + 4 := by
  have h : playMove stCap rulesC 0 =
      .ok ⟨⟨[0, 0], [0, 0], 4, 5, 1⟩, [Loc.pit 0 1], 0, 0, false,
        CapInfo.captureAt 1 0 4, true⟩ := by rfl
  exact ((C2_capture_law_amended h rfl).2.1 1 0 4 rfl).2.2.2.2

/-! ## The root loop of `bestMove` (C6) -/

theorem xlt_irrefl (a : XVal) : XVal.lt a a = false := by
  cases a <;> simp [XVal.lt]

theorem xmax_absorb (a b : XVal) : xmax a (xmax a b) = xmax a b := by
  unfold xmax
  by_cases h : XVal.lt a b = true
  · rw [if_pos h, if_pos h]
  · rw [if_neg h, if_neg (by rw [xlt_irrefl]; exact Bool.false_ne_true)]

theorem bmLoop_eq_firstArgmax (st : GameState) (rules : Rules) (d : Nat) (rootP : Fin 2)
    (sP sO : Int) :
    ∀ (moves : List Nat) (alpha : XVal) (bm : Int) (bs : XVal),
      bmLoop st rules d rootP sP sO moves alpha bm bs =
        firstArgmax (bmTraceLoop st rules d rootP sP sO moves alpha bs) bm bs := by
  intro moves
  induction moves with
  | nil => intro alpha bm bs; rfl
  | cons mv rest ih =>
    intro alpha bm bs
    cases hmv : playMove st rules (mv : Int) with
    | error e =>
      simp only [bmLoop, bmTraceLoop, hmv]
      exact ih alpha bm bs
    | ok res =>
      simp only [bmLoop, bmTraceLoop, hmv, firstArgmax]
      by_cases hlt : XVal.lt bs (alphabeta rules rootP sP sO d res.state alpha XVal.posInf
          (if res.mover = rootP ∧ res.extraTurn = true then 1 else 0)) = true
      · simp only [if_pos hlt]
        exact ih _ _ _
      · simp only [if_neg hlt]
        exact ih _ _ _

theorem firstArgmax_snd :
    ∀ (l : List RootCall) (m : Int) (s : XVal),
      (firstArgmax l m s).2 = (l.map RootCall.val).foldl xmax s := by
  intro l
  induction l with
  | nil => intro m s; rfl
  | cons e rest ih =>
    intro m s
    simp only [firstArgmax, List.map_cons, List.foldl_cons]
    by_cases hlt : XVal.lt s e.val = true
    · rw [if_pos hlt, ih]
      congr 1
      unfold xmax
      rw [if_pos hlt]
    · rw [if_neg hlt, ih]
      congr 1
      unfold xmax
      rw [if_neg hlt]

theorem bmTraceLoop_alpha (st : GameState) (rules : Rules) (d : Nat) (rootP : Fin 2)
    (sP sO : Int) :
    ∀ (moves : List Nat) (alpha bs : XVal), alpha = bs →
      ∀ k, k < (bmTraceLoop st rules d rootP sP sO moves alpha bs).length →
        ((bmTraceLoop st rules d rootP sP sO moves alpha bs).getD k rcDflt).alpha =
          (((bmTraceLoop st rules d rootP sP sO moves alpha bs).take k).map
            RootCall.val).foldl xmax bs := by
  intro moves
  induction moves with
  | nil =>
    intro alpha bs _ k hk
    simp [bmTraceLoop] at hk
  | cons mv rest ih =>
    intro alpha bs hab k hk
    cases hmv : playMove st rules (mv : Int) with
    | error e =>
      simp only [bmTraceLoop, hmv] at hk ⊢
      exact ih alpha bs hab k hk
    | ok res =>
      simp only [bmTraceLoop, hmv] at hk ⊢
      cases k with
      | zero =>
        simpa using hab
      | succ kk =>
        have hinv : xmax alpha (if XVal.lt bs (alphabeta rules rootP sP sO d res.state alpha
            XVal.posInf (if res.mover = rootP ∧ res.extraTurn = true then 1 else 0)) = true
              then alphabeta rules rootP sP sO d res.state alpha XVal.posInf
                (if res.mover = rootP ∧ res.extraTurn = true then 1 else 0) else bs) =
            (if XVal.lt bs (alphabeta rules rootP sP sO d res.state alpha XVal.posInf
              (if res.mover = rootP ∧ res.extraTurn = true then 1 else 0)) = true
                then alphabeta rules rootP sP sO d res.state alpha XVal.posInf
                  (if res.mover = rootP ∧ res.extraTurn = true then 1 else 0) else bs) := by
          rw [hab]
          exact xmax_absorb bs _
        have hrec := ih _ _ hinv kk (by simpa using hk)
        simp only [List.getD_cons_succ, List.take_succ_cons, List.map_cons, List.foldl_cons]
        exact hrec

theorem bmTraceLoop_calls (st : GameState) (rules : Rules) (d : Nat) (rootP : Fin 2)
    (sP sO : Int) :
    ∀ (moves : List Nat) (alpha bs : XVal),
      ∀ e ∈ bmTraceLoop st rules d rootP sP sO moves alpha bs,
        e.beta = XVal.posInf ∧
        ∃ res, playMove st rules (e.mv : Int) = .ok res ∧
          e.rep = (if res.mover = rootP ∧ res.extraTurn = true then 1 else 0) ∧
          e.val = alphabeta rules rootP sP sO d res.state e.alpha e.beta e.rep := by
  intro moves
  induction moves with
  | nil =>
    intro alpha bs e he
    simp [bmTraceLoop] at he
  | cons mv rest ih =>
    intro alpha bs e he
    cases hmv : playMove st rules (mv : Int) with
    | error err =>
      simp only [bmTraceLoop, hmv] at he
      exact ih alpha _ e he
    | ok res =>
      simp only [bmTraceLoop, hmv] at he
      rcases List.mem_cons.mp he with rfl | he
      · exact ⟨rfl, res, hmv, rfl, rfl⟩
      · exact ih _ _ e he

/-- C6 counterexample: in the two-pit one-seed opening with search depth 1,
the heuristically first root candidate (pit 1, which earns an extra turn) is
searched with the unbounded window, but the second candidate (pit 0) is
searched with `alpha` already raised to the first candidate's score 16 — not
with `alpha = -Infinity` as the claim asserts for every candidate. -/
theorem C6_bestMove_counterexample :
    rootTrace (initStandard rulesB 0) rulesB 1 =
      [⟨1, XVal.negInf, XVal.posInf, 1, XVal.num 16⟩,
       ⟨0, XVal.num 16, XVal.posInf, 0, XVal.num 0⟩] ∧
    bestMove (initStandard rulesB 0) rulesB 1 = ⟨true, 1, XVal.num 16⟩ := by
  constructor
  · rfl
  · rfl

/-- C6 (amended): in `bestMove`, only the first evaluated root candidate is
searched with the unbounded window: every candidate `k` is searched with
`beta = Infinity` and `alpha` equal to the maximum of `-Infinity` and the
scores of the candidates evaluated before `k` (so the first gets
`alpha = -Infinity`); `repRoot` is seeded with 1 exactly when that root ply
grants the mover (the root player) an extra turn; and the returned move and
score are the first-wins maximum over the candidate scores in heuristic
evaluation order, the score being their running maximum. -/
theorem C6_bestMove_amended (st : GameState) (rules : Rules) (depth : Int) :
    (∀ k, k < (rootTrace st rules depth).length →
      ((rootTrace st rules depth).getD k rcDflt).alpha =
        (((rootTrace st rules depth).take k).map RootCall.val).foldl xmax XVal.negInf) ∧
    (∀ e ∈ rootTrace st rules depth, e.beta = XVal.posInf ∧
      ∃ res, playMove st rules (e.mv : Int) = .ok res ∧
        e.rep = (if res.mover = st.toMove ∧ res.extraTurn = true then 1 else 0) ∧
        e.val = alphabeta rules st.toMove (storeOf st st.toMove) (storeOf st (1 - st.toMove))
          ((if depth ≤ 0 then 1 else depth.toNat) - 1) res.state e.alpha e.beta e.rep) ∧
    (∀ m0 rest, getValidMoves st rules = m0 :: rest →
      bestMove st rules depth =
        ⟨true, (firstArgmax (rootTrace st rules depth) (m0 : Int) XVal.negInf).1,
          (firstArgmax (rootTrace st rules depth) (m0 : Int) XVal.negInf).2⟩ ∧
      (bestMove st rules depth).score =
        ((rootTrace st rules depth).map RootCall.val).foldl xmax XVal.negInf) ∧
    (getValidMoves st rules = [] →
      bestMove st rules depth = ⟨false, -1, XVal.negInf⟩ ∧ rootTrace st rules depth = []) := by
  cases hm : getValidMoves st rules with
  | nil =>
    refine ⟨?_, ?_, ?_, ?_⟩
    · intro k hk
      simp only [rootTrace, hm] at hk
      simp at hk
    · intro e he
      simp only [rootTrace, hm] at he
      simp at he
    · intro m0 rest heq
      exact absurd heq (by simp)
    · intro _
      constructor
      · simp only [bestMove, hm]
      · simp only [rootTrace, hm]
  | cons m0 rest =>
    refine ⟨?_, ?_, ?_, ?_⟩
    · intro k hk
      simp only [rootTrace, hm] at hk ⊢
      exact bmTraceLoop_alpha st rules _ st.toMove _ _ _ XVal.negInf XVal.negInf rfl k hk
    · intro e he
      simp only [rootTrace, hm] at he ⊢
      exact bmTraceLoop_calls st rules _ st.toMove _ _ _ XVal.negInf XVal.negInf e he
    · intro m0x restx heq
      injection heq with e1 e2
      subst e1
      subst e2
      constructor
      · simp only [bestMove, rootTrace, hm]
        rw [bmLoop_eq_firstArgmax]
      · simp only [bestMove, rootTrace, hm]
        rw [bmLoop_eq_firstArgmax]
        show (firstArgmax _ _ _).2 = _
        rw [firstArgmax_snd]
    · intro hcon
      exact absurd hcon (by simp)

/-- Witness for C6 at a concrete input: the first root candidate of the
two-pit one-seed opening is searched with `alpha = -Infinity`. -/
theorem C6_bestMove_amended_witness :
    ((rootTrace (initStandard rulesB 0) rulesB 1).getD 0 rcDflt).alpha = XVal.negInf := by
  have h := (C6_bestMove_amended (initStandard rulesB 0) rulesB 1).1 0 (by decide)
  rw [h]
  rfl

/-! ## The state machine (C7): no exact repeat, absorbing terminal states -/

theorem filter_eq_nil_iff_int {st : GameState} {rules : Rules}
    (ha : rules.allowMoveFromEmpty = false) :
    getValidMoves st rules = [] ↔
      ∀ i < rules.pitsPerSide, getPit (pitsOf st st.toMove) i = 0 := by
  unfold getValidMoves
  rw [ha]
  constructor
  · intro h i hi
    by_contra hne
    have hmem : i ∈ (List.range rules.pitsPerSide).filter fun i =>
        false || !(getPit (pitsOf st st.toMove) i == 0) := by
      rw [List.mem_filter]
      exact ⟨List.mem_range.mpr hi, by simp [hne]⟩
    rw [h] at hmem
    cases hmem
  · intro h
    rw [List.filter_eq_nil_iff]
    intro i hi
    simp [h i (List.mem_range.mp hi)]

theorem store_not_mem_of_count_zero :
    ∀ {path : List Loc}, storeLocCount path = 0 → ∀ side : Fin 2, Loc.store side ∉ path := by
  intro path
  induction path with
  | nil => intro _ side hmem; cases hmem
  | cons loc rest ih =>
    intro hz side hmem
    cases loc with
    | store s => simp [storeLocCount] at hz
    | pit s i =>
      rcases List.mem_cons.mp hmem with heq | hmem2
      · cases heq
      · exact ih (by simpa [storeLocCount] using hz) side hmem2

theorem sowPathGo_no_store_shape (n : Nat) (m : Fin 2) :
    ∀ (h p : Nat), p ≤ n → Loc.store m ∉ sowPathGo n m h p →
      ∀ loc ∈ sowPathGo n m h p, ∃ j, loc = Loc.pit m j ∧ p ≤ j ∧ j < n := by
  intro h
  induction h with
  | zero => intro p _ _ loc hloc; cases hloc
  | succ k ih =>
    intro p hp hns loc hloc
    rcases Nat.lt_or_ge p n with hlt | hge
    · have hhead : ringLoc n m p = Loc.pit m p := by
        unfold ringLoc
        rw [if_pos hlt]
      rcases List.mem_cons.mp hloc with rfl | hloc2
      · exact ⟨p, hhead, le_rfl, hlt⟩
      · have hnext : (p + 1) % (2 * n + 1) = p + 1 := Nat.mod_eq_of_lt (by omega)
        have hns2 : Loc.store m ∉ sowPathGo n m k ((p + 1) % (2 * n + 1)) :=
          fun hmem => hns (List.mem_cons_of_mem _ hmem)
        obtain ⟨j, e, hj1, hj2⟩ := ih ((p + 1) % (2 * n + 1))
          (by rw [hnext]; omega) hns2 loc hloc2
        rw [hnext] at hj1
        exact ⟨j, e, by omega, hj2⟩
    · have hpn : p = n := by omega
      exfalso
      apply hns
      have hhead : ringLoc n m p = Loc.store m := by
        unfold ringLoc
        rw [if_neg (by omega), if_pos hpn]
      show Loc.store m ∈ ringLoc n m p :: sowPathGo n m k ((p + 1) % (2 * n + 1))
      rw [hhead]
      exact List.mem_cons_self _ _

theorem pitIdxSum_ge (m : Fin 2) (q : Nat) :
    ∀ path : List Loc, (∀ loc ∈ path, ∃ j, loc = Loc.pit m j ∧ q ≤ j) →
      (path.length : Int) * q ≤ pitIdxSum path := by
  intro path
  induction path with
  | nil => intro _; simp [pitIdxSum]
  | cons loc rest ih =>
    intro hshape
    obtain ⟨j, rfl, hj1⟩ := hshape loc (List.mem_cons_self loc rest)
    have hrest := ih fun l hl => hshape l (List.mem_cons_of_mem _ hl)
    show (((Loc.pit m j :: rest).length : Int)) * q ≤ (j : Int) + pitIdxSum rest
    have hjq : (q : Int) ≤ (j : Int) := by exact_mod_cast hj1
    have hlen : ((Loc.pit m j :: rest).length : Int) = (rest.length : Int) + 1 := by
      simp
    rw [hlen]
    have hexp : ((rest.length : Int) + 1) * q = (rest.length : Int) * q + q := by ring
    rw [hexp]
    linarith only [hrest, hjq]

theorem playMove_measure {st : GameState} {rules : Rules} {p : Int} {res : MoveResult}
    (h : playMove st rules p = .ok res)
    (ha : rules.allowMoveFromEmpty = false)
    (h0 : st.pits0.length = rules.pitsPerSide) (h1 : st.pits1.length = rules.pitsPerSide)
    (hNN : NonNeg st) :
    MeasLt st res.state := by
  obtain ⟨hp0, hpn, hval, _, _, _, _, _, hstate⟩ := playMove_ok_elim h
  have hpiLt : p.toNat < rules.pitsPerSide := by omega
  have hhand0 : getPit (pitsOf st st.toMove) p.toNat ≠ 0 := by
    rcases hval with hv | hv
    · rw [ha] at hv; cases hv
    · exact hv
  have hhandpos : 0 < getPit (pitsOf st st.toMove) p.toNat :=
    lt_of_le_of_ne (hand_nonneg hNN _ _) (Ne.symm hhand0)
  obtain ⟨s0, s1, _, sstore, sphi, _, snn⟩ :=
    sowedState_facts st rules st.toMove p.toNat hpiLt h0 h1
  obtain ⟨c0, c1, _, cstore, ccap, ceq, _, cnn⟩ :=
    captureStep_facts st rules st.toMove p.toNat h0 h1 hpiLt
  obtain ⟨m0, m1, _, mstore, mphi, mnn⟩ := setToMove_facts (captureStep st rules st.toMove p.toNat).1
    (if (rules.extraTurnOnStore &&
        lastIsMoverStore (sowPath st rules st.toMove p.toNat) st.toMove) = true
      then st.toMove else 1 - st.toMove)
  have hNNmid : NonNeg (setToMove (captureStep st rules st.toMove p.toNat).1
      (if (rules.extraTurnOnStore &&
          lastIsMoverStore (sowPath st rules st.toMove p.toNat) st.toMove) = true
        then st.toMove else 1 - st.toMove)) := mnn (cnn (snn hNN))
  obtain ⟨f0, f1, _, _, _, fmono, feq⟩ := finalize_facts
    (setToMove (captureStep st rules st.toMove p.toNat).1
      (if (rules.extraTurnOnStore &&
          lastIsMoverStore (sowPath st rules st.toMove p.toNat) st.toMove) = true
        then st.toMove else 1 - st.toMove)) rules
    (by rw [m0]; exact c0) (by rw [m1]; exact c1)
  have hSC : (0 : Int) ≤ (storeLocCount (sowPath st rules st.toMove p.toNat) : Int) :=
    Int.natCast_nonneg _
  have hmono := fmono hNNmid
  have hge : storeSum st ≤ storeSum res.state := by
    rw [hstate]
    omega
  rcases eq_or_lt_of_le hge with hEq | hLt
  · right
    refine ⟨hEq, ?_⟩
    have hfinSum : storeSum res.state = storeSum st := hEq.symm
    rw [hstate] at hfinSum
    have hSCz : storeLocCount (sowPath st rules st.toMove p.toNat) = 0 := by omega
    have hCAz : capAdd (captureStep st rules st.toMove p.toNat).2 = 0 := by omega
    have hfin_mid : storeSum (finalizeIfTerminal
        (setToMove (captureStep st rules st.toMove p.toNat).1
          (if (rules.extraTurnOnStore &&
              lastIsMoverStore (sowPath st rules st.toMove p.toNat) st.toMove) = true
            then st.toMove else 1 - st.toMove)) rules) =
        storeSum (setToMove (captureStep st rules st.toMove p.toNat).1
          (if (rules.extraTurnOnStore &&
              lastIsMoverStore (sowPath st rules st.toMove p.toNat) st.toMove) = true
            then st.toMove else 1 - st.toMove)) := by omega
    have hphif := feq hNNmid hfin_mid
    have hceq := ceq hCAz
    rw [hstate, hphif, mphi, hceq, sphi]
    have hnostore := store_not_mem_of_count_zero hSCz st.toMove
    have hpath_eq : sowPath st rules st.toMove p.toNat =
        sowPathGo rules.pitsPerSide st.toMove
          (getPit (pitsOf st st.toMove) p.toNat).toNat (p.toNat + 1) := by
      unfold sowPath
      rw [if_neg (by omega)]
      congr 1
      exact Nat.mod_eq_of_lt (by omega)
    rw [hpath_eq] at hnostore ⊢
    have hshape := sowPathGo_no_store_shape rules.pitsPerSide st.toMove
      (getPit (pitsOf st st.toMove) p.toNat).toNat (p.toNat + 1) (by omega) hnostore
    have hlenIdx := pitIdxSum_ge st.toMove (p.toNat + 1)
      (sowPathGo rules.pitsPerSide st.toMove
        (getPit (pitsOf st st.toMove) p.toNat).toNat (p.toNat + 1))
      (fun loc hloc => by
        obtain ⟨j, e, hj1, _⟩ := hshape loc hloc
        exact ⟨j, e, hj1⟩)
    rw [sowPathGo_length] at hlenIdx
    have hcast : ((getPit (pitsOf st st.toMove) p.toNat).toNat : Int) =
        getPit (pitsOf st st.toMove) p.toNat := Int.toNat_of_nonneg (le_of_lt hhandpos)
    rw [hcast] at hlenIdx
    push_cast at hlenIdx
    have hmul : getPit (pitsOf st st.toMove) p.toNat * ((p.toNat : Int) + 1) =
        (p.toNat : Int) * getPit (pitsOf st st.toMove) p.toNat +
          getPit (pitsOf st st.toMove) p.toNat := by ring
    rw [hmul] at hlenIdx
    linarith only [hlenIdx, hhandpos]
  · left
    exact hLt

theorem measLt_trans {a b c : GameState} (h1 : MeasLt a b) (h2 : MeasLt b c) : MeasLt a c := by
  unfold MeasLt at *
  rcases h1 with h1 | ⟨e1, p1⟩ <;> rcases h2 with h2 | ⟨e2, p2⟩
  · left; omega
  · left; omega
  · left; omega
  · right; exact ⟨by omega, by omega⟩

theorem measLt_irrefl (a : GameState) : ¬ MeasLt a a := by
  unfold MeasLt
  omega

theorem reachesN_measLt {rules : Rules} {k : Nat} {s t : GameState}
    (hr : ReachesN rules k s t)
    (ha : rules.allowMoveFromEmpty = false)
    (h0 : s.pits0.length = rules.pitsPerSide) (h1 : s.pits1.length = rules.pitsPerSide)
    (hNN : NonNeg s) :
    (s = t ∧ k = 0) ∨ MeasLt s t := by
  induction hr with
  | refl s => exact Or.inl ⟨rfl, rfl⟩
  | @step k2 s2 t2 mv res hr2 hmv ih =>
    obtain ⟨i0, i1, iNN, _⟩ := reachesN_inv hr2 h0 h1 hNN
    have hstep := playMove_measure hmv ha i0 i1 iNN
    rcases ih h0 h1 hNN with ⟨rfl, _⟩ | hlt
    · exact Or.inr hstep
    · exact Or.inr (measLt_trans hlt hstep)

/-- C7 counterexample: the claim fails on both conjuncts.  Under
`allowMoveFromEmpty = true` two consecutive zero-seed no-op moves from
`stCycle` return the exact same `GameState` (pits, stores and `toMove`), so
a state repeats along a play line of successful moves; and the terminal
state `stTermMovable` (side 1 empty) still has a legal move for side 0 even
though `allowMoveFromEmpty = false`. -/
theorem C7_state_machine_counterexample :
    playMove stCycle rulesE 0 =
      .ok ⟨stCycleB, [], 0, 0, false, CapInfo.noCapture, false⟩ ∧
    playMove stCycleB rulesE 0 =
      .ok ⟨stCycle, [], 1, 0, false, CapInfo.noCapture, false⟩ ∧
    isTerminal stTermMovable rulesA = true ∧
    rulesA.allowMoveFromEmpty = false ∧
    getValidMoves stTermMovable rulesA = [0] :=
  ⟨by rfl, by rfl, by decide, rfl, by decide⟩

/-- C7 (amended): under `allowMoveFromEmpty = false` and for play lines
starting at a state of the data model (length-`n` arrays, non-negative
counts), no exact `GameState` occurs twice along a sequence of successful
moves — every successful move strictly increases the pair (combined store
count, store-distance drift) lexicographically; and the legal-move
enumeration returns the empty list exactly when every pit on the side to
move is zero, so all-swept terminal states are absorbing. -/
theorem C7_state_machine_amended :
    (∀ (rules : Rules) (s0 s t : GameState) (k j : Nat),
      rules.allowMoveFromEmpty = false →
      s0.pits0.length = rules.pitsPerSide → s0.pits1.length = rules.pitsPerSide →
      NonNeg s0 →
      ReachesN rules k s0 s → ReachesN rules (j + 1) s t → s ≠ t) ∧
    (∀ (st : GameState) (rules : Rules), rules.allowMoveFromEmpty = false →
      (getValidMoves st rules = [] ↔
        ∀ i < rules.pitsPerSide, getPit (pitsOf st st.toMove) i = 0)) := by
  constructor
  · intro rules s0 s t k j ha h0 h1 hNN hks hst
    obtain ⟨i0, i1, iNN, _⟩ := reachesN_inv hks h0 h1 hNN
    rcases reachesN_measLt hst ha i0 i1 iNN with ⟨_, hk0⟩ | hlt
    · cases hk0
    · intro heq
      rw [heq] at hlt
      exact measLt_irrefl t hlt
  · intro st rules ha
    exact filter_eq_nil_iff_int ha

/-- Witness for C7 at a concrete input: the one-pit, one-seed opening move
strictly changes the state, so the successor differs from the start. -/
theorem C7_state_machine_amended_witness :
    initStandard rulesA 0 ≠ ⟨[0], [0], 1, 1, 0⟩ :=
  C7_state_machine_amended.1 rulesA (initStandard rulesA 0) (initStandard rulesA 0)
    ⟨[0], [0], 1, 1, 0⟩ 0 0 rfl (by decide) (by decide)
    ⟨by decide, by decide, le_rfl, le_rfl⟩
    (ReachesN.refl _)
    (ReachesN.step (ReachesN.refl _)
      (show playMove (initStandard rulesA 0) rulesA 0 =
        .ok ⟨⟨[0], [0], 1, 1, 0⟩, [Loc.store 0], 0, 0, true, CapInfo.noCapture, true⟩
       by rfl))

end Mancala
